import Mathlib

/-!
# Verification of the Huffman coder in `src/main.rs`

This file is a shallow embedding of the Huffman entropy coder implemented in
`src/main.rs` of the `jpeg-compress-rust` repository, together with proofs and
refutations of the specification's claims about it.

Modelling conventions:

* Rust's `HashMap<char, i32>` (resp. `HashMap<char, Vec<bool>>`) is modelled as
  an association list `List (Char × Int)` (resp. `List (Char × List Bool)`)
  with insert-overwrite semantics; iteration order of a `HashMap` is
  unspecified in Rust, so the list order stands in for it.
* Rust's `BinaryHeap<Reverse<HuffmanNode>>` is modelled as a `List HuffmanNode`
  from which `popMin` removes an element of minimal `frequency` (ties in a
  `BinaryHeap` are broken in an unspecified internal order; `popMin`
  deterministically removes the leftmost minimal element).
* A Rust `panic!` is modelled as the `RustOutcome.panicked` result; the code
  has no recoverable `Result` error values anywhere, so every failure surfaces
  as `panicked`.
* `i32` frequencies are modelled as `Int`, with every arithmetic operation the
  source performs on them (`*x += 1` in `get_frequencies`, the child-frequency
  addition in the merge loop) wrapped to the `i32` range by `wrapI32`,
  mirroring two's-complement overflow of a release build.  (A debug build
  panics at the same operations; under either behaviour the overflowing runs
  diverge from the unbounded arithmetic.)
* The `while heap.len() > 1` loop runs at most `heap.len()` times, so it is
  embedded with an explicit fuel of `heap.length`, which keeps every
  definition computable by the kernel.
-/

namespace Huffman

/-- Outcome of a Rust computation: a normal return, or a process abort via
`panic!` carrying the panic message. -/
inductive RustOutcome (α : Type) : Type where
  | ok : α → RustOutcome α
  | panicked : String → RustOutcome α
deriving DecidableEq

namespace RustOutcome

/-- `true` iff the computation returned normally. -/
def isOk {α : Type} : RustOutcome α → Bool
  | .ok _ => true
  | .panicked _ => false

/-- The returned value, if the computation did not panic. -/
def okValue {α : Type} : RustOutcome α → Option α
  | .ok a => some a
  | .panicked _ => none

/-- The panic message, if the computation panicked. -/
def panicMsg {α : Type} : RustOutcome α → Option String
  | .ok _ => none
  | .panicked m => some m

end RustOutcome

/-- The `HuffmanNode` struct of `src/main.rs`: the fields are `left` and
`right` (optional boxed children), `value` (the optional symbol of a leaf) and
`frequency` (the `i32` weight).  The two `Option` children are inlined into
four constructor shapes — one per presence pattern — which is the same data as
the Rust struct laid out as a plain tagged variant (`N` = absent child, `S` =
present child, left then right); `HuffmanNode.mk` rebuilds a node from the two
optional children exactly as a Rust struct literal does, and the four
projections below recover the struct fields. -/
inductive HuffmanNode : Type where
  | mkNN : Option Char → Int → HuffmanNode
  | mkSN : HuffmanNode → Option Char → Int → HuffmanNode
  | mkNS : HuffmanNode → Option Char → Int → HuffmanNode
  | mkSS : HuffmanNode → HuffmanNode → Option Char → Int → HuffmanNode
deriving DecidableEq

/-- Build a node from its four struct fields, as a Rust struct literal does. -/
def HuffmanNode.mk : Option HuffmanNode → Option HuffmanNode → Option Char → Int → HuffmanNode
  | none, none, v, f => .mkNN v f
  | some l, none, v, f => .mkSN l v f
  | none, some r, v, f => .mkNS r v f
  | some l, some r, v, f => .mkSS l r v f

/-- Field `left` of `HuffmanNode`. -/
def HuffmanNode.left : HuffmanNode → Option HuffmanNode
  | .mkNN _ _ => none
  | .mkSN l _ _ => some l
  | .mkNS _ _ _ => none
  | .mkSS l _ _ _ => some l

/-- Field `right` of `HuffmanNode`. -/
def HuffmanNode.right : HuffmanNode → Option HuffmanNode
  | .mkNN _ _ => none
  | .mkSN _ _ _ => none
  | .mkNS r _ _ => some r
  | .mkSS _ r _ _ => some r

/-- Field `value` of `HuffmanNode`. -/
def HuffmanNode.value : HuffmanNode → Option Char
  | .mkNN v _ => v
  | .mkSN _ v _ => v
  | .mkNS _ v _ => v
  | .mkSS _ _ v _ => v

/-- Field `frequency` of `HuffmanNode`. -/
def HuffmanNode.frequency : HuffmanNode → Int
  | .mkNN _ f => f
  | .mkSN _ _ f => f
  | .mkNS _ _ f => f
  | .mkSS _ _ _ f => f

/-- The code table `HashMap<char, Vec<bool>>`, as an association list. -/
abbrev Table := List (Char × List Bool)

/-- `HashMap::insert`: the most recent binding shadows any older one, which a
front insertion together with first-match lookup reproduces exactly. -/
def Table.insertEntry (table : Table) (c : Char) (code : List Bool) : Table :=
  (c, code) :: table

/-- `HashMap::get` on the code table. -/
def Table.getCode (table : Table) (c : Char) : Option (List Bool) :=
  (table.find? (fun p => p.1 = c)).map (fun p => p.2)

/-- `build_table` of `src/main.rs`: walk the tree accumulating the bit path
(`false` = left, `true` = right); record the path at a node carrying a
`value`; panic if a valueless node is missing a child. -/
def build_table : HuffmanNode → List Bool → Table → RustOutcome Table
  | .mkNN (some v) _, code, table => .ok (Table.insertEntry table v code)
  | .mkNN none _, _, _ => .panicked ("Something strange happening :/")
  | .mkNS _ (some v) _, code, table => .ok (Table.insertEntry table v code)
  | .mkNS _ none _, _, _ => .panicked ("Something strange happening :/")
  | .mkSN _ (some v) _, code, table => .ok (Table.insertEntry table v code)
  | .mkSN child none _, code, table =>
    match build_table child (code ++ [false]) table with
    | .panicked msg => .panicked msg
    | .ok _ => .panicked ("Something strange happening :/")
  | .mkSS _ _ (some v) _, code, table => .ok (Table.insertEntry table v code)
  | .mkSS child child2 none _, code, table =>
    match build_table child (code ++ [false]) table with
    | .panicked msg => .panicked msg
    | .ok table1 => build_table child2 (code ++ [true]) table1

/-- Two's-complement wrap to the `i32` range, as Rust release-profile `i32`
arithmetic overflows. -/
def wrapI32 (x : Int) : Int := (x + 2 ^ 31) % 2 ^ 32 - 2 ^ 31

/-- One step of `get_frequencies`:
`frequencies.entry(*c).and_modify(|x| *x += 1).or_insert(1)`; the increment
is `i32` arithmetic. -/
def frequencyBump : List (Char × Int) → Char → List (Char × Int)
  | [], c => [(c, 1)]
  | (k, v) :: rest, c =>
    if k = c then (k, wrapI32 (v + 1)) :: rest else (k, v) :: frequencyBump rest c

/-- `get_frequencies` of `src/main.rs`: count the occurrences of each symbol. -/
def get_frequencies (chars : List Char) : List (Char × Int) :=
  chars.foldl frequencyBump []

/-- `HashMap::get` on the frequency-mapping model. -/
def lookupFrequency (m : List (Char × Int)) (c : Char) : Option Int :=
  (m.find? (fun p => p.1 = c)).map (fun p => p.2)

/-- Stable insertion of a pair into a list sorted by ascending frequency
(second component). -/
def sortedInsert (p : Char × Int) : List (Char × Int) → List (Char × Int)
  | [] => [p]
  | q :: rest => if q.2 ≤ p.2 then q :: sortedInsert p rest else p :: q :: rest

/-- The stable `unique_chars.sort_by(...)` on frequencies performed by
`build_huffman_from_frequencies` before filling the heap. -/
def sortByFrequency : List (Char × Int) → List (Char × Int)
  | [] => []
  | p :: rest => sortedInsert p (sortByFrequency rest)

/-- `BinaryHeap::pop` on the min-heap of nodes: remove an element of minimal
`frequency` (the leftmost one, standing in for the heap's unspecified
tie-breaking order). -/
def popMin : List HuffmanNode → Option (HuffmanNode × List HuffmanNode)
  | [] => none
  | x :: xs =>
    match popMin xs with
    | none => some (x, [])
    | some (m, rest) =>
      if x.frequency ≤ m.frequency then some (x, xs) else some (m, x :: rest)

/-- The merged node built in the loop body of `build_huffman_from_frequencies`:
both popped nodes become children, the frequency is their `i32` sum, `value`
is `None`. -/
def combine (l r : HuffmanNode) : HuffmanNode :=
  .mk (some l) (some r) none (wrapI32 (l.frequency + r.frequency))

/-- One iteration of the `while heap.len() > 1` loop: pop two minimal nodes,
push their combination.  (The `None` fallbacks mirror the code's `if let`
arms, which silently do nothing; they are unreachable while the loop guard
holds.) -/
def mergeStep (heap : List HuffmanNode) : List HuffmanNode :=
  match popMin heap with
  | none => heap
  | some (left, heap1) =>
    match popMin heap1 with
    | none => heap
    | some (right, heap2) => combine left right :: heap2

/-- The `while heap.len() > 1` loop, with fuel: each iteration shrinks the
heap by one element, so `heap.length` iterations always suffice. -/
def mergeLoopAux : Nat → List HuffmanNode → List HuffmanNode
  | 0, heap => heap
  | fuel + 1, heap => if 1 < heap.length then mergeLoopAux fuel (mergeStep heap) else heap

/-- The fully fuelled merge loop. -/
def mergeLoop (heap : List HuffmanNode) : List HuffmanNode :=
  mergeLoopAux heap.length heap

/-- The `HuffmanTree` struct of `src/main.rs`: the derived code table together
with the owned root node. -/
structure HuffmanTree : Type where
  table : Table
  root : HuffmanNode

/-- `build_huffman_from_frequencies` of `src/main.rs`: sort the symbols by
frequency, push one leaf per symbol, merge until one node remains, then derive
the code table from the root. -/
def build_huffman_from_frequencies (frequencies : List (Char × Int)) :
    RustOutcome HuffmanTree :=
  let heap : List HuffmanNode :=
    (sortByFrequency frequencies).map (fun p => HuffmanNode.mk none none (some p.1) p.2)
  match popMin (mergeLoop heap) with
  | some (root, _) =>
    match build_table root [] [] with
    | .ok table => .ok { table := table, root := root }
    | .panicked msg => .panicked msg
  | none => .panicked ("Something strange going on :/")

/-- `HuffmanTree::new`: frequency analysis followed by the build pipeline. -/
def HuffmanTree.new (chars : List Char) : RustOutcome HuffmanTree :=
  build_huffman_from_frequencies (get_frequencies chars)

/-- `HuffmanTree::get_code`. -/
def HuffmanTree.get_code (t : HuffmanTree) (c : Char) : Option (List Bool) :=
  Table.getCode t.table c

/-- The loop of `HuffmanTree::encode`, with `result` as accumulator; an
unknown symbol panics. -/
def HuffmanTree.encodeGo (t : HuffmanTree) : List Char → List Bool → RustOutcome (List Bool)
  | [], result => .ok result
  | c :: rest, result =>
    match t.get_code c with
    | some code => t.encodeGo rest (result ++ code)
    | none =>
      .panicked (String.singleton c ++ " was not found in huffman tree :: Failed to encode")

/-- `HuffmanTree::encode` of `src/main.rs`. -/
def HuffmanTree.encode (t : HuffmanTree) (chars : List Char) : RustOutcome (List Bool) :=
  t.encodeGo chars []

/-- The cursor move of one `HuffmanTree::decode` iteration: descend to the
`right` child on `true`, to the `left` child on `false`; a missing child
leaves the cursor in place, exactly as the code's `if let` does. -/
def HuffmanTree.decodeAdvance (cur : HuffmanNode) (bit : Bool) : HuffmanNode :=
  match bit with
  | true =>
    match cur.right with
    | some n => n
    | none => cur
  | false =>
    match cur.left with
    | some n => n
    | none => cur

/-- The loop of `HuffmanTree::decode`: advance the cursor per bit, and
whenever the reached node carries a `value`, emit it and reset the cursor to
the root.  The returned pair also carries the cursor the loop ends on (the
Rust code holds it in `current_node` and drops it at the end). -/
def HuffmanTree.decodeLoop (t : HuffmanTree) :
    HuffmanNode → List Bool → List Char × HuffmanNode
  | cur, [] => ([], cur)
  | cur, bit :: rest =>
    match (HuffmanTree.decodeAdvance cur bit).value with
    | some v =>
      let after := t.decodeLoop t.root rest
      (v :: after.1, after.2)
    | none => t.decodeLoop (HuffmanTree.decodeAdvance cur bit) rest

/-- `HuffmanTree::decode` of `src/main.rs`. -/
def HuffmanTree.decode (t : HuffmanTree) (code : List Bool) : List Char :=
  (t.decodeLoop t.root code).1

/-! ## Observation helpers

Closed-form observations through the fallible pipeline, used to state concrete
counterexamples without comparing whole trees. -/

/-- Build the coder from `chars` (as `main` does) and, when every stage
returns normally, decode the encoding of `chars` back. -/
def roundTrip (chars : List Char) : Option (List Char) :=
  match HuffmanTree.new chars with
  | .panicked _ => none
  | .ok t =>
    match t.encode chars with
    | .panicked _ => none
    | .ok bits => some (t.decode bits)

/-- The code-table entry of `c` in the coder built from `frequencies`. -/
def codeInBuiltTable (frequencies : List (Char × Int)) (c : Char) : Option (List Bool) :=
  match build_huffman_from_frequencies frequencies with
  | .ok t => t.get_code c
  | .panicked _ => none

/-- Build the coder from `chars`, then encode `input` with it. -/
def encodeViaBuilt (chars input : List Char) : Option (RustOutcome (List Bool)) :=
  (HuffmanTree.new chars).okValue.map (fun t => t.encode input)

/-- Build the coder from `chars`, then decode `bits` with it. -/
def decodeViaBuilt (chars : List Char) (bits : List Bool) : Option (List Char) :=
  (HuffmanTree.new chars).okValue.map (fun t => t.decode bits)

/-! ## Structural invariants of built trees -/

/-- Well-formedness of the trees this program ever builds: a node is either a
leaf (a symbol, no children) or an internal node (both children present, no
symbol).  Leaves pushed by the builder and nodes made by `combine` are exactly
of these two shapes. -/
inductive WF : HuffmanNode → Prop where
  | leaf : ∀ (c : Char) (f : Int), WF (.mkNN (some c) f)
  | node : ∀ (l r : HuffmanNode) (f : Int), WF l → WF r → WF (.mkSS l r none f)

/-- The symbol/path pairs `build_table` records for a (well-formed) subtree
reached along the accumulated path `code`, in traversal order. -/
def pathsOf : HuffmanNode → List Bool → List (Char × List Bool)
  | .mkNN (some v) _, code => [(v, code)]
  | .mkNS _ (some v) _, code => [(v, code)]
  | .mkSN _ (some v) _, code => [(v, code)]
  | .mkSS _ _ (some v) _, code => [(v, code)]
  | .mkSS l r none _, code => pathsOf l (code ++ [false]) ++ pathsOf r (code ++ [true])
  | _, _ => []

/-! ## Abstract weight trees

Infrastructure for the optimality proof: binary trees carrying only leaf
weights.  `cost` is the weighted external path length, written in the usual
recursive form (each internal node contributes the weights of both subtrees,
which amounts to summing depth × weight over all leaves). -/

inductive WTree : Type where
  | leaf : Nat → WTree
  | node : WTree → WTree → WTree

namespace WTree

/-- The multiset of leaf weights. -/
def leavesW : WTree → Multiset Nat
  | leaf w => {w}
  | node l r => leavesW l + leavesW r

/-- Total weight. -/
def wsum : WTree → Nat
  | leaf w => w
  | node l r => wsum l + wsum r

/-- Weighted external path length. -/
def cost : WTree → Nat
  | leaf _ => 0
  | node l r => cost l + cost r + wsum l + wsum r

end WTree

/-- `Removed u d s t t'`: `t'` is `t` with one leaf of weight `u` removed;
the leaf sat at depth `d ≥ 1` and its sibling subtree (which moves up into
the parent's place) has total weight `s`. -/
inductive Removed (u : Nat) : Nat → Nat → WTree → WTree → Prop where
  | left : ∀ S : WTree, Removed u 1 S.wsum (.node (.leaf u) S) S
  | right : ∀ S : WTree, Removed u 1 S.wsum (.node S (.leaf u)) S
  | inl : ∀ {d s L L'} (R : WTree), Removed u d s L L' → Removed u (d + 1) s (.node L R) (.node L' R)
  | inr : ∀ {d s R R'} (L : WTree), Removed u d s R R' → Removed u (d + 1) s (.node L R) (.node L R')

/-- `Replaced u w d t t'`: `t'` is `t` with the weight of one leaf of weight
`u`, sitting at depth `d`, changed to `w`. -/
inductive Replaced (u w : Nat) : Nat → WTree → WTree → Prop where
  | here : Replaced u w 0 (.leaf u) (.leaf w)
  | inl : ∀ {d L L'} (R : WTree), Replaced u w d L L' → Replaced u w (d + 1) (.node L R) (.node L' R)
  | inr : ∀ {d R R'} (L : WTree), Replaced u w d R R' → Replaced u w (d + 1) (.node L R) (.node L R')

/-- `PairMerged a b z d t t'`: `t` holds sibling leaves of weights `a` and
`z` whose parent sits at depth `d`, and `t'` replaces that parent by a single
leaf of weight `a + b`. -/
inductive PairMerged (a b z : Nat) : Nat → WTree → WTree → Prop where
  | hereL : PairMerged a b z 0 (.node (.leaf a) (.leaf z)) (.leaf (a + b))
  | hereR : PairMerged a b z 0 (.node (.leaf z) (.leaf a)) (.leaf (a + b))
  | inl : ∀ {d L L'} (R : WTree), PairMerged a b z d L L' →
      PairMerged a b z (d + 1) (.node L R) (.node L' R)
  | inr : ∀ {d R R'} (L : WTree), PairMerged a b z d R R' →
      PairMerged a b z (d + 1) (.node L R) (.node L R')

/-- Greedy Huffman merging on a weight multiset, tracking the accumulated
merge cost: each step removes two minimal weights and re-inserts their sum,
adding that sum to the cost.  (The merge loop of
`build_huffman_from_frequencies` performs exactly such steps.) -/
inductive HuffSteps : Multiset Nat → Nat → Prop where
  | single : ∀ w : Nat, HuffSteps {w} 0
  | step : ∀ (M : Multiset Nat) (a b k : Nat),
      a ∈ M → b ∈ M.erase a →
      (∀ v ∈ M, a ≤ v) → (∀ v ∈ M.erase a, b ≤ v) →
      HuffSteps ((a + b) ::ₘ (M.erase a).erase b) k →
      HuffSteps M (k + a + b)

/-- Entries of a weighted code list starting with bit `b`, with that bit
stripped.  Used to build a tree from a prefix-free code assignment. -/
def stripBit (b : Bool) : List (Nat × List Bool) → List (Nat × List Bool)
  | [] => []
  | e :: rest =>
    if e.2.head? = some b then (e.1, e.2.tail) :: stripBit b rest else stripBit b rest

/-- Decreasing measure for `trieOf`: total remaining code length plus the
number of entries. -/
def trieMeasure (l : List (Nat × List Bool)) : Nat :=
  (l.map (fun e => e.2.length)).sum + l.length

theorem stripBit_measure (b : Bool) (l : List (Nat × List Bool)) :
    trieMeasure (stripBit b l) ≤ (l.map (fun e => e.2.length)).sum := by
  induction l with
  | nil => simp [stripBit, trieMeasure]
  | cons e rest ih =>
    rw [stripBit]
    by_cases h : e.2.head? = some b
    · have hlen : e.2.tail.length + 1 = e.2.length := by
        cases hc : e.2 with
        | nil => rw [hc] at h; simp at h
        | cons x xs => simp
      simp only [if_pos h, trieMeasure, List.map_cons, List.sum_cons, List.length_cons] at ih ⊢
      omega
    · simp only [if_neg h, List.map_cons, List.sum_cons]
      simp only [trieMeasure] at ih ⊢
      omega

/-- A binary tree realising a weighted code list: split on the leading bit,
recursing; collapse levels at which only one bit occurs; a single entry
becomes a leaf.  For a prefix-free list this places every weight at depth at
most its code length. -/
def trieOf : List (Nat × List Bool) → WTree
  | [] => .leaf 0
  | [e] => .leaf e.1
  | e1 :: e2 :: rest =>
    let l := e1 :: e2 :: rest
    let l0 := stripBit false l
    let l1 := stripBit true l
    if h0 : l0 = [] then trieOf l1
    else if h1 : l1 = [] then trieOf l0
    else .node (trieOf l0) (trieOf l1)
termination_by l => trieMeasure l
decreasing_by
  all_goals
    have hm1 := stripBit_measure true (e1 :: e2 :: rest)
    have hm2 := stripBit_measure false (e1 :: e2 :: rest)
    simp only [trieMeasure] at hm1 hm2 ⊢
    simp only [List.length_cons]
    omega

/-- Pairwise prefix-freedom of a weighted code list: no entry's code is a
prefix of another entry's code. -/
def PairwiseNoPre (l : List (Nat × List Bool)) : Prop :=
  l.Pairwise (fun e1 e2 => ¬ e1.2 <+: e2.2 ∧ ¬ e2.2 <+: e1.2)

/-- Frequency-consistent well-formedness: the shape invariant `WF` together
with what the builder guarantees about the `frequency` fields — leaves carry
a non-negative frequency, and each internal node's frequency is the sum of
its children's (exactly what `combine` writes). -/
inductive WFN : HuffmanNode → Prop where
  | leaf : ∀ (c : Char) (f : Int), 0 ≤ f → WFN (.mkNN (some c) f)
  | node : ∀ {l r : HuffmanNode}, WFN l → WFN r →
      WFN (.mkSS l r none (l.frequency + r.frequency))

/-- The weight tree underlying a built Huffman tree: leaves keep their
frequency (as a natural number), internal nodes keep only the branching.
(The one-child shapes never occur in built trees; they are mapped to an
arbitrary subtree.) -/
def toW : HuffmanNode → WTree
  | .mkNN _ f => .leaf f.toNat
  | .mkSN l _ _ => toW l
  | .mkNS r _ _ => toW r
  | .mkSS l r _ _ => .node (toW l) (toW r)

/-- The symbol/frequency pairs at the value-carrying nodes of a tree, in the
traversal order of `build_table`. -/
def leafEntries : HuffmanNode → List (Char × Int)
  | .mkNN (some v) f => [(v, f)]
  | .mkNS _ (some v) f => [(v, f)]
  | .mkSN _ (some v) f => [(v, f)]
  | .mkSS _ _ (some v) f => [(v, f)]
  | .mkSS l r none _ => leafEntries l ++ leafEntries r
  | _ => []

/-- The symbol, frequency and accumulated bit path of every value-carrying
node reached from `code`, in the traversal order of `build_table`. -/
def leafData : HuffmanNode → List Bool → List (Char × Int × List Bool)
  | .mkNN (some v) f, code => [(v, f, code)]
  | .mkNS _ (some v) f, code => [(v, f, code)]
  | .mkSN _ (some v) f, code => [(v, f, code)]
  | .mkSS _ _ (some v) f, code => [(v, f, code)]
  | .mkSS l r none _, code =>
      leafData l (code ++ [false]) ++ leafData r (code ++ [true])
  | _, _ => []

/-- The multiset of total weights of the heap's trees. -/
def heapFreqs (heap : List HuffmanNode) : Multiset Nat :=
  (heap.map (fun n => (toW n).wsum) : List Nat)

/-- The summed weighted path length of the heap's trees. -/
def heapCost (heap : List HuffmanNode) : Nat :=
  (heap.map (fun n => (toW n).cost)).sum

/-- The multiset of all symbol/frequency leaf pairs across the heap. -/
def heapEntries (heap : List HuffmanNode) : Multiset (Char × Int) :=
  (heap.map (fun n => ((leafEntries n : List (Char × Int)) : Multiset (Char × Int)))).sum

/-! ## Concrete sample coders

Computed instances of the pipeline, used by witnesses and counterexamples. -/

/-- The leaf the builder produces for symbol `'a'` with frequency 1. -/
def leafA : HuffmanNode := .mk none none (some 'a') 1

/-- The leaf the builder produces for symbol `'b'` with frequency 2. -/
def leafB : HuffmanNode := .mk none none (some 'b') 2

/-- The leaf the builder produces for symbol `'c'` with frequency 4. -/
def leafC : HuffmanNode := .mk none none (some 'c') 4

/-- The coder built from frequencies `a ↦ 1, b ↦ 2` (e.g. from input "abb"). -/
def pairTree : HuffmanTree :=
  { table := [('b', [true]), ('a', [false])]
    root := .mk (some leafA) (some leafB) none 3 }

/-- The coder built from frequencies `a ↦ 1, b ↦ 2, c ↦ 4`
(e.g. from input "abbcccc"): `c ↦ 1`, `b ↦ 01`, `a ↦ 00`. -/
def tripleTree : HuffmanTree :=
  { table := [('c', [true]), ('b', [false, true]), ('a', [false, false])]
    root := .mk (some (.mk (some leafA) (some leafB) none 3)) (some leafC) none 7 }

/-- An in-scope frequency mapping whose very first merge overflows `i32`:
five symbols of frequency `2 ^ 30`. -/
def fmFive : List (Char × Int) :=
  [('a', 2 ^ 30), ('b', 2 ^ 30), ('c', 2 ^ 30), ('d', 2 ^ 30), ('e', 2 ^ 30)]

/-- A prefix-free rival code for the five symbols of `fmFive` with code
lengths 2, 2, 2, 3, 3. -/
def rivalCode5 (c : Char) : List Bool :=
  if c = 'a' then [false, false]
  else if c = 'b' then [false, true]
  else if c = 'c' then [true, false]
  else if c = 'd' then [true, true, false]
  else [true, true, true]

/-! ## Lemmas about the priority queue model -/

theorem popMin_eq_none {l : List HuffmanNode} (h : popMin l = none) : l = [] := by
  cases l with
  | nil => rfl
  | cons x xs =>
    rw [popMin] at h
    cases hx : popMin xs with
    | none => simp [hx] at h
    | some p =>
      rw [hx] at h
      by_cases hle : x.frequency ≤ p.1.frequency <;> simp [hle] at h

theorem popMin_perm {l : List HuffmanNode} {m : HuffmanNode} {rest : List HuffmanNode}
    (h : popMin l = some (m, rest)) : l.Perm (m :: rest) := by
  induction l generalizing m rest with
  | nil => simp [popMin] at h
  | cons x xs ih =>
    rw [popMin] at h
    cases hx : popMin xs with
    | none =>
      rw [hx] at h
      have : x = m ∧ [] = rest := by simpa using h
      obtain ⟨rfl, rfl⟩ := this
      rw [popMin_eq_none hx]
    | some p =>
      obtain ⟨m', rest'⟩ := p
      rw [hx] at h
      by_cases hle : x.frequency ≤ m'.frequency
      · have : x = m ∧ xs = rest := by simpa [hle] using h
        obtain ⟨rfl, rfl⟩ := this
        exact List.Perm.refl _
      · have : m' = m ∧ x :: rest' = rest := by simpa [hle] using h
        obtain ⟨rfl, rfl⟩ := this
        exact ((ih hx).cons x).trans (List.Perm.swap m' x rest')

theorem popMin_length {l : List HuffmanNode} {m : HuffmanNode} {rest : List HuffmanNode}
    (h : popMin l = some (m, rest)) : l.length = rest.length + 1 := by
  simpa using (popMin_perm h).length_eq

theorem popMin_isSome {l : List HuffmanNode} (h : l ≠ []) :
    ∃ m rest, popMin l = some (m, rest) := by
  cases hp : popMin l with
  | none => exact absurd (popMin_eq_none hp) h
  | some p => exact ⟨p.1, p.2, by simp [hp]⟩

/-- The popped node has minimal frequency among the heap's nodes. -/
theorem popMin_min {l : List HuffmanNode} {m : HuffmanNode} {rest : List HuffmanNode}
    (h : popMin l = some (m, rest)) : ∀ n ∈ l, m.frequency ≤ n.frequency := by
  induction l generalizing m rest with
  | nil => simp [popMin] at h
  | cons x xs ih =>
    rw [popMin] at h
    cases hx : popMin xs with
    | none =>
      rw [hx] at h
      have hxs := popMin_eq_none hx
      have : x = m ∧ [] = rest := by simpa using h
      obtain ⟨rfl, rfl⟩ := this
      simp [hxs]
    | some p =>
      obtain ⟨m', rest'⟩ := p
      rw [hx] at h
      by_cases hle : x.frequency ≤ m'.frequency
      · have : x = m ∧ xs = rest := by simpa [hle] using h
        obtain ⟨rfl, rfl⟩ := this
        intro n hn
        rcases hn with _ | hn
        · exact le_refl _
        · exact le_trans hle (ih hx n (by assumption))
      · have : m' = m ∧ x :: rest' = rest := by simpa [hle] using h
        obtain ⟨rfl, rfl⟩ := this
        intro n hn
        rcases hn with _ | hn
        · exact le_of_not_le hle
        · exact ih hx n (by assumption)

theorem mergeStep_length {heap : List HuffmanNode} (h : 1 < heap.length) :
    (mergeStep heap).length + 1 = heap.length := by
  have hne : heap ≠ [] := by
    intro he; rw [he] at h; simp at h
  obtain ⟨m1, rest1, h1⟩ := popMin_isSome hne
  have hlen1 : heap.length = rest1.length + 1 := popMin_length h1
  have hne1 : rest1 ≠ [] := by
    intro he
    rw [he] at hlen1
    simp at hlen1
    omega
  obtain ⟨m2, rest2, h2⟩ := popMin_isSome hne1
  have hlen2 : rest1.length = rest2.length + 1 := popMin_length h2
  simp only [mergeStep, h1, h2, List.length_cons]
  omega

theorem mergeLoopAux_length {fuel : Nat} :
    ∀ {heap : List HuffmanNode}, heap.length ≤ fuel + 1 → 1 ≤ heap.length →
      (mergeLoopAux fuel heap).length = 1 := by
  induction fuel with
  | zero =>
    intro heap hle hge
    rw [mergeLoopAux]
    omega
  | succ n ih =>
    intro heap hle hge
    rw [mergeLoopAux]
    by_cases h : 1 < heap.length
    · have hs := mergeStep_length h
      simp only [h, if_true]
      exact ih (by omega) (by omega)
    · simp only [h, if_false]
      omega

theorem mergeLoop_length {heap : List HuffmanNode} (h : 1 ≤ heap.length) :
    (mergeLoop heap).length = 1 :=
  mergeLoopAux_length (by omega) h

/-! ## Well-formedness of every tree the builder produces -/

theorem mergeStep_wf {heap : List HuffmanNode} (hwf : ∀ n ∈ heap, WF n) :
    ∀ n ∈ mergeStep heap, WF n := by
  cases h1 : popMin heap with
  | none => simpa [mergeStep, h1] using hwf
  | some p1 =>
    obtain ⟨left, heap1⟩ := p1
    cases h2 : popMin heap1 with
    | none => simpa [mergeStep, h1, h2] using hwf
    | some p2 =>
      obtain ⟨right, heap2⟩ := p2
      have hm1 : ∀ {n : HuffmanNode}, n ∈ left :: heap1 → n ∈ heap :=
        fun {n} hn => (popMin_perm h1).mem_iff.mpr hn
      have hm2 : ∀ {n : HuffmanNode}, n ∈ right :: heap2 → n ∈ heap1 :=
        fun {n} hn => (popMin_perm h2).mem_iff.mpr hn
      intro n hn
      simp only [mergeStep, h1, h2] at hn
      rcases List.mem_cons.mp hn with rfl | hn
      · refine WF.node left right _ (hwf left ?_) (hwf right ?_)
        · exact hm1 (by simp)
        · exact hm1 (List.mem_cons_of_mem _ (hm2 (by simp)))
      · exact hwf n (hm1 (List.mem_cons_of_mem _ (hm2 (List.mem_cons_of_mem _ hn))))

theorem mergeLoopAux_wf : ∀ (fuel : Nat) (heap : List HuffmanNode),
    (∀ n ∈ heap, WF n) → ∀ n ∈ mergeLoopAux fuel heap, WF n := by
  intro fuel
  induction fuel with
  | zero => intro heap hwf; simpa [mergeLoopAux] using hwf
  | succ k ih =>
    intro heap hwf
    rw [mergeLoopAux]
    by_cases h : 1 < heap.length
    · simpa [h] using ih (mergeStep heap) (mergeStep_wf hwf)
    · simpa [h] using hwf

/-! ## `build_table` on well-formed trees -/

theorem build_table_ok {n : HuffmanNode} (h : WF n) :
    ∀ (code : List Bool) (table : Table),
      build_table n code table = .ok ((pathsOf n code).reverse ++ table) := by
  induction h with
  | leaf c f =>
    intro code table
    simp [build_table, pathsOf, Table.insertEntry]
  | node l r f hl hr ihl ihr =>
    intro code table
    simp only [build_table, pathsOf, ihl (code ++ [false]) table, ihr (code ++ [true]) _]
    simp [List.reverse_append, List.append_assoc]

/-! ## The build pipeline succeeds exactly on non-empty frequency mappings -/

theorem sortedInsert_length (p : Char × Int) (l : List (Char × Int)) :
    (sortedInsert p l).length = l.length + 1 := by
  induction l with
  | nil => rfl
  | cons q rest ih =>
    rw [sortedInsert]
    by_cases h : q.2 ≤ p.2 <;> simp [h, ih]

theorem sortByFrequency_length (l : List (Char × Int)) :
    (sortByFrequency l).length = l.length := by
  induction l with
  | nil => rfl
  | cons p rest ih => simp [sortByFrequency, sortedInsert_length, ih]

/-- The heap the builder starts from: one well-formed leaf per entry. -/
theorem initialHeap_wf (fm : List (Char × Int)) :
    ∀ n ∈ (sortByFrequency fm).map (fun p => HuffmanNode.mk none none (some p.1) p.2), WF n := by
  intro n hn
  obtain ⟨p, _, rfl⟩ := List.mem_map.mp hn
  exact WF.leaf p.1 p.2

/-- Whenever the build pipeline returns a tree, its root is well-formed and
its table is exactly the reversed traversal-order path list of the root. -/
theorem build_ok_elim {fm : List (Char × Int)} {tree : HuffmanTree}
    (h : build_huffman_from_frequencies fm = .ok tree) :
    WF tree.root ∧ tree.table = (pathsOf tree.root []).reverse := by
  rw [build_huffman_from_frequencies] at h
  set heap := (sortByFrequency fm).map (fun p => HuffmanNode.mk none none (some p.1) p.2)
    with hheap
  cases hp : popMin (mergeLoop heap) with
  | none => rw [hp] at h; exact absurd h (by simp)
  | some p =>
    obtain ⟨root, rest⟩ := p
    rw [hp] at h
    have hroot : WF root := by
      have hwfloop := mergeLoopAux_wf (heap.length) heap (initialHeap_wf fm)
      have : root ∈ mergeLoop heap := (popMin_perm hp).mem_iff.mpr (by simp)
      exact hwfloop root this
    have h' : (match build_table root [] [] with
        | RustOutcome.ok table => RustOutcome.ok { table := table, root := root }
        | RustOutcome.panicked msg =>
          (RustOutcome.panicked msg : RustOutcome HuffmanTree)) = RustOutcome.ok tree := h
    rw [build_table_ok hroot [] []] at h'
    simp only [RustOutcome.ok.injEq] at h'
    subst h'
    simpa using hroot

/-- The build pipeline succeeds on every non-empty frequency mapping. -/
theorem build_succeeds {fm : List (Char × Int)} (h : fm ≠ []) :
    ∃ tree, build_huffman_from_frequencies fm = .ok tree := by
  rw [build_huffman_from_frequencies]
  set heap := (sortByFrequency fm).map (fun p => HuffmanNode.mk none none (some p.1) p.2)
    with hheap
  have hlen : heap.length = fm.length := by
    simp [hheap, sortByFrequency_length]
  have hge : 1 ≤ heap.length := by
    rw [hlen]
    exact List.length_pos.mpr h
  have hone := mergeLoop_length hge
  have hne : mergeLoop heap ≠ [] := by
    intro he; rw [he] at hone; simp at hone
  obtain ⟨root, rest, hp⟩ := popMin_isSome hne
  have hroot : WF root := by
    have hwfloop := mergeLoopAux_wf (heap.length) heap (initialHeap_wf fm)
    exact hwfloop root ((popMin_perm hp).mem_iff.mpr (by simp))
  rw [hp]
  refine ⟨HuffmanTree.mk ((pathsOf root []).reverse ++ []) root, ?_⟩
  show (match build_table root [] [] with
      | RustOutcome.ok table => RustOutcome.ok (HuffmanTree.mk table root)
      | RustOutcome.panicked msg =>
        (RustOutcome.panicked msg : RustOutcome HuffmanTree)) =
    RustOutcome.ok (HuffmanTree.mk ((pathsOf root []).reverse ++ []) root)
  rw [build_table_ok hroot [] []]

/-! ## Prefix-freeness of the derived code table -/

/-- Every path `build_table` records below a subtree extends the accumulated
path it was reached along. -/
theorem pathsOf_extends {n : HuffmanNode} (h : WF n) :
    ∀ (code : List Bool) (s : Char) (cs : List Bool),
      (s, cs) ∈ pathsOf n code → code <+: cs := by
  induction h with
  | leaf c f =>
    intro code s cs hmem
    simp only [pathsOf, List.mem_singleton, Prod.mk.injEq] at hmem
    obtain ⟨rfl, rfl⟩ := hmem
    exact List.prefix_rfl
  | node l r f hl hr ihl ihr =>
    intro code s cs hmem
    simp only [pathsOf, List.mem_append] at hmem
    rcases hmem with hmem | hmem
    · exact (List.prefix_append code [false]).trans (ihl _ s cs hmem)
    · exact (List.prefix_append code [true]).trans (ihr _ s cs hmem)

/-- A list that extends `p ++ [a]` holds `a` at position `p.length`. -/
theorem getElem_of_snoc_extension {p : List Bool} {a : Bool} {x : List Bool}
    (h : (p ++ [a]) <+: x) : x[p.length]? = some a := by
  obtain ⟨t, rfl⟩ := h
  rw [List.append_assoc, List.getElem?_append_right (le_refl p.length)]
  simp

/-- Distinct symbols in the recorded path list carry codes of which neither is
a prefix of the other. -/
theorem pathsOf_pairwise_unrelated {n : HuffmanNode} (h : WF n) :
    ∀ (code : List Bool) (s : Char) (cs : List Bool) (t : Char) (ct : List Bool),
      (s, cs) ∈ pathsOf n code → (t, ct) ∈ pathsOf n code → s ≠ t → ¬ cs <+: ct := by
  induction h with
  | leaf c f =>
    intro code s cs t ct hs ht hst
    simp only [pathsOf, List.mem_singleton, Prod.mk.injEq] at hs ht
    exact absurd (hs.1.trans ht.1.symm) hst
  | node l r f hl hr ihl ihr =>
    intro code s cs t ct hs ht hst hpre
    simp only [pathsOf, List.mem_append] at hs ht
    rcases hs with hs | hs <;> rcases ht with ht | ht
    · exact ihl _ s cs t ct hs ht hst hpre
    · have h1 : (code ++ [false]) <+: ct :=
        (pathsOf_extends hl _ s cs hs).trans hpre
      have h2 : (code ++ [true]) <+: ct := pathsOf_extends hr _ t ct ht
      have := (getElem_of_snoc_extension h1).symm.trans (getElem_of_snoc_extension h2)
      simp at this
    · have h1 : (code ++ [true]) <+: ct :=
        (pathsOf_extends hr _ s cs hs).trans hpre
      have h2 : (code ++ [false]) <+: ct := pathsOf_extends hl _ t ct ht
      have := (getElem_of_snoc_extension h1).symm.trans (getElem_of_snoc_extension h2)
      simp at this
    · exact ihr _ s cs t ct hs ht hst hpre

/-- A successful `HashMap::get` on the table model names an entry of it. -/
theorem getCode_mem {tbl : Table} {c : Char} {code : List Bool}
    (h : Table.getCode tbl c = some code) : (c, code) ∈ tbl := by
  rw [Table.getCode] at h
  cases hf : tbl.find? (fun p => p.1 = c) with
  | none => rw [hf] at h; simp at h
  | some p =>
    rw [hf] at h
    have hmem := List.mem_of_find?_eq_some hf
    have hpc : p.1 = c := by simpa using List.find?_some hf
    have hcode : p.2 = code := by simpa using h
    rw [← hpc, ← hcode]
    simpa using hmem

/-! ## The encode loop -/

/-- When every symbol is in the table, `encode` returns the concatenation of
the symbols' codes after the accumulator. -/
theorem encodeGo_all_known (t : HuffmanTree) :
    ∀ (input : List Char) (acc : List Bool),
      (∀ c ∈ input, (t.get_code c).isSome = true) →
      t.encodeGo input acc =
        .ok (acc ++ input.flatMap (fun c => (t.get_code c).getD [])) := by
  intro input
  induction input with
  | nil => intro acc _; simp [HuffmanTree.encodeGo]
  | cons c rest ih =>
    intro acc hall
    have hc : (t.get_code c).isSome = true := hall c (by simp)
    obtain ⟨code, hcode⟩ := Option.isSome_iff_exists.mp hc
    rw [HuffmanTree.encodeGo, hcode]
    show t.encodeGo rest (acc ++ code) = _
    rw [ih (acc ++ code) (fun x hx => hall x (by simp [hx]))]
    simp [hcode]

/-- When some symbol is missing from the table, `encode` panics whatever the
accumulated output was. -/
theorem encodeGo_unknown (t : HuffmanTree) :
    ∀ (input : List Char), (∃ c ∈ input, t.get_code c = none) →
      ∀ (acc : List Bool), ∃ msg, t.encodeGo input acc = .panicked msg := by
  intro input
  induction input with
  | nil => intro h; simp at h
  | cons c rest ih =>
    intro h acc
    cases hc : t.get_code c with
    | none => exact ⟨_, by rw [HuffmanTree.encodeGo, hc]⟩
    | some code =>
      obtain ⟨c', hc', hnone⟩ := h
      rcases List.mem_cons.mp hc' with rfl | hc'
      · exact absurd hnone (by simp [hc])
      · obtain ⟨msg, hm⟩ := ih ⟨c', hc', hnone⟩ (acc ++ code)
        refine ⟨msg, ?_⟩
        rw [HuffmanTree.encodeGo, hc]
        show t.encodeGo rest (acc ++ code) = _
        exact hm

/-! ## The decode loop -/

/-- Decoding a concatenation: decode the first part, then continue from the
cursor it ends on. -/
theorem decodeLoop_append (t : HuffmanTree) :
    ∀ (xs : List Bool) (cur : HuffmanNode) (ys : List Bool),
      t.decodeLoop cur (xs ++ ys) =
        ((t.decodeLoop cur xs).1 ++ (t.decodeLoop (t.decodeLoop cur xs).2 ys).1,
         (t.decodeLoop (t.decodeLoop cur xs).2 ys).2) := by
  intro xs
  induction xs with
  | nil => intro cur ys; simp [HuffmanTree.decodeLoop]
  | cons b bs ih =>
    intro cur ys
    rw [List.cons_append]
    cases hv : (HuffmanTree.decodeAdvance cur b).value with
    | some v => simp [HuffmanTree.decodeLoop, hv, ih]
    | none => simp [HuffmanTree.decodeLoop, hv, ih]

/-! ## The frequency analyzer -/

theorem wrapI32_eq_self {x : Int} (h1 : -2 ^ 31 ≤ x) (h2 : x < 2 ^ 31) :
    wrapI32 x = x := by
  rw [wrapI32]
  omega

theorem wrapI32_wrap_add (x y : Int) : wrapI32 (wrapI32 x + y) = wrapI32 (x + y) := by
  rw [wrapI32, wrapI32, wrapI32]
  omega

theorem wrapI32_one : wrapI32 1 = 1 := by decide

theorem lookupFrequency_bump_self (m : List (Char × Int)) (a : Char) :
    lookupFrequency (frequencyBump m a) a =
      some (wrapI32 ((lookupFrequency m a).getD 0 + 1)) := by
  induction m with
  | nil => simp [frequencyBump, lookupFrequency, wrapI32_one]
  | cons p rest ih =>
    obtain ⟨k, v⟩ := p
    by_cases h : k = a
    · subst h
      simp [frequencyBump, lookupFrequency]
    · simp only [frequencyBump, if_neg h]
      simpa [lookupFrequency, List.find?, h] using ih

theorem lookupFrequency_bump_other (m : List (Char × Int)) (a c : Char) (h : c ≠ a) :
    lookupFrequency (frequencyBump m a) c = lookupFrequency m c := by
  induction m with
  | nil => simp [frequencyBump, lookupFrequency, List.find?, Ne.symm h]
  | cons p rest ih =>
    obtain ⟨k, v⟩ := p
    by_cases hk : k = a
    · subst hk
      simp [frequencyBump, lookupFrequency, List.find?, Ne.symm h]
    · simp only [frequencyBump, if_neg hk]
      by_cases hc : k = c
      · subst hc
        simp [lookupFrequency, List.find?]
      · simpa [lookupFrequency, List.find?, hc] using ih

theorem keys_bump (m : List (Char × Int)) (a : Char) :
    (frequencyBump m a).map Prod.fst =
      if a ∈ m.map Prod.fst then m.map Prod.fst else m.map Prod.fst ++ [a] := by
  induction m with
  | nil => simp [frequencyBump]
  | cons p rest ih =>
    obtain ⟨k, v⟩ := p
    by_cases h : k = a
    · subst h
      simp [frequencyBump]
    · simp only [frequencyBump, if_neg h, List.map_cons]
      rw [ih]
      by_cases hmem : a ∈ rest.map Prod.fst
      · simp [hmem, Ne.symm h]
      · simp [hmem, Ne.symm h]

theorem keys_bump_nodup (m : List (Char × Int)) (a : Char)
    (h : (m.map Prod.fst).Nodup) : ((frequencyBump m a).map Prod.fst).Nodup := by
  rw [keys_bump]
  by_cases hmem : a ∈ m.map Prod.fst
  · simpa [hmem] using h
  · simpa [hmem, List.nodup_append] using h

theorem get_frequencies_keys_nodup_aux (l : List Char) :
    ∀ m : List (Char × Int), (m.map Prod.fst).Nodup →
      ((l.foldl frequencyBump m).map Prod.fst).Nodup := by
  induction l with
  | nil => intro m hm; simpa using hm
  | cons a rest ih =>
    intro m hm
    exact ih (frequencyBump m a) (keys_bump_nodup m a hm)

theorem lookupFrequency_foldl (l : List Char) :
    ∀ (m : List (Char × Int)) (c : Char),
      lookupFrequency (l.foldl frequencyBump m) c =
        match lookupFrequency m c with
        | some v =>
            some (if l.count c = 0 then v else wrapI32 (v + (l.count c : Int)))
        | none => if c ∈ l then some (wrapI32 ((l.count c : Int))) else none := by
  induction l with
  | nil =>
    intro m c
    cases h : lookupFrequency m c <;> simp [h]
  | cons a rest ih =>
    intro m c
    rw [List.foldl_cons, ih (frequencyBump m a) c]
    by_cases hca : c = a
    · subst hca
      rw [lookupFrequency_bump_self]
      have hcnt : (((c :: rest).count c : Nat) : Int) = (rest.count c : Int) + 1 := by
        simp [List.count_cons]
      cases h : lookupFrequency m c with
      | none =>
        simp only [h, Option.getD_none, List.mem_cons, true_or, if_pos, zero_add]
        rw [hcnt]
        by_cases h0 : rest.count c = 0
        · simp [h0]
        · rw [if_neg h0, wrapI32_wrap_add, Int.add_comm 1]
      | some v =>
        simp only [h, Option.getD_some]
        have hne : (c :: rest).count c ≠ 0 := by simp [List.count_cons]
        rw [if_neg hne, hcnt]
        by_cases h0 : rest.count c = 0
        · simp [h0]
        · rw [if_neg h0, wrapI32_wrap_add, add_assoc, Int.add_comm 1]
    · rw [lookupFrequency_bump_other m a c hca]
      cases h : lookupFrequency m c <;>
        simp [h, List.count_cons, hca, Ne.symm hca]

/-- Membership in the mapping's key set is equivalent to a successful lookup. -/
theorem mem_keys_iff_lookup (m : List (Char × Int)) (c : Char) :
    c ∈ m.map Prod.fst ↔ (lookupFrequency m c).isSome = true := by
  induction m with
  | nil => simp [lookupFrequency]
  | cons p rest ih =>
    by_cases h : p.1 = c
    · simp [lookupFrequency, List.find?, h]
    · have hfind : List.find? (fun q => decide (q.1 = c)) (p :: rest) =
          List.find? (fun q => decide (q.1 = c)) rest := by
        rw [List.find?_cons_of_neg]
        simp [h]
      rw [lookupFrequency, hfind, ← lookupFrequency, ← ih]
      simp [Ne.symm h]

/-- With duplicate-free keys, list membership of an entry determines the
lookup result. -/
theorem lookup_of_mem_nodup {m : List (Char × Int)} {c : Char} {f : Int}
    (hnd : (m.map Prod.fst).Nodup) (hmem : (c, f) ∈ m) :
    lookupFrequency m c = some f := by
  induction m with
  | nil => simp at hmem
  | cons p rest ih =>
    obtain ⟨k, v⟩ := p
    rw [List.map_cons, List.nodup_cons] at hnd
    rcases List.mem_cons.mp hmem with heq | hmem'
    · injection heq with h1 h2
      subst h1
      subst h2
      simp [lookupFrequency, List.find?]
    · have hk : k ≠ c := by
        intro h
        subst h
        exact hnd.1 (List.mem_map.mpr ⟨(k, f), hmem', rfl⟩)
      have := ih hnd.2 hmem'
      simpa [lookupFrequency, List.find?, hk] using this

/-! ## The single-entry pipeline -/

/-- On a one-entry mapping the merge loop never runs, the sole leaf becomes
the root, and `build_table` records the empty path for its symbol. -/
theorem build_single (c : Char) (f : Int) :
    build_huffman_from_frequencies [(c, f)] =
      .ok (HuffmanTree.mk [(c, [])] (.mkNN (some c) f)) := rfl

/-- Over a root-is-leaf tree the decode cursor never moves: every bit emits
the leaf's symbol. -/
theorem decodeLoop_single (t : HuffmanTree) (c : Char) (f : Int)
    (hroot : t.root = .mkNN (some c) f) :
    ∀ bits : List Bool,
      t.decodeLoop t.root bits = (List.replicate bits.length c, t.root) := by
  intro bits
  induction bits with
  | nil => simp [HuffmanTree.decodeLoop]
  | cons b bs ih =>
    have hadv : HuffmanTree.decodeAdvance t.root b = t.root := by
      rw [hroot]
      cases b <;> simp [HuffmanTree.decodeAdvance, HuffmanNode.left, HuffmanNode.right]
    rw [HuffmanTree.decodeLoop, hadv, hroot]
    simp only [HuffmanNode.value]
    rw [← hroot]
    simp [ih, List.replicate_succ]

/-- With the one-entry table `[(c, [])]`, encoding any run of `c`s appends
nothing to the accumulator. -/
theorem encodeGo_single (t : HuffmanTree) (c : Char) (htbl : t.table = [(c, [])]) :
    ∀ (input : List Char) (acc : List Bool),
      (∀ x ∈ input, x = c) → t.encodeGo input acc = .ok acc := by
  intro input
  induction input with
  | nil => intro acc _; simp [HuffmanTree.encodeGo]
  | cons x rest ih =>
    intro acc hall
    have hx : x = c := hall x (by simp)
    subst hx
    have hcode : t.get_code x = some [] := by
      simp [HuffmanTree.get_code, htbl, Table.getCode, List.find?]
    rw [HuffmanTree.encodeGo, hcode]
    show t.encodeGo rest (acc ++ []) = _
    rw [List.append_nil]
    exact ih acc (fun y hy => hall y (by simp [hy]))

theorem get_frequencies_def (chars : List Char) :
    get_frequencies chars = chars.foldl frequencyBump [] := rfl

theorem new_def (chars : List Char) :
    HuffmanTree.new chars = build_huffman_from_frequencies (get_frequencies chars) := rfl

theorem encode_def (t : HuffmanTree) (chars : List Char) :
    t.encode chars = t.encodeGo chars [] := rfl

theorem decode_def (t : HuffmanTree) (code : List Bool) :
    t.decode code = (t.decodeLoop t.root code).1 := rfl

theorem get_frequencies_ne_nil {chars : List Char} (h : chars ≠ []) :
    get_frequencies chars ≠ [] := by
  obtain ⟨c, rest, rfl⟩ := List.exists_cons_of_ne_nil h
  intro hempty
  have hl := lookupFrequency_foldl (c :: rest) [] c
  rw [get_frequencies_def] at hempty
  rw [hempty] at hl
  simp [lookupFrequency] at hl

/-- Folding the counter over a run of one symbol: iterated wrapped
increments. -/
theorem foldl_bump_replicate (c : Char) : ∀ (n : Nat) (v : Int),
    (List.replicate n c).foldl frequencyBump [(c, v)]
      = [(c, if n = 0 then v else wrapI32 (v + (n : Int)))] := by
  intro n
  induction n with
  | zero => intro v; rfl
  | succ n ih =>
    intro v
    rw [List.replicate_succ, List.foldl_cons]
    have hb : frequencyBump [(c, v)] c = [(c, wrapI32 (v + 1))] := by
      simp [frequencyBump]
    rw [hb, ih (wrapI32 (v + 1))]
    by_cases h0 : n = 0
    · subst h0
      norm_num
    · rw [if_neg h0, if_neg (Nat.succ_ne_zero n), wrapI32_wrap_add]
      have hc : v + 1 + (n : Int) = v + ((n + 1 : Nat) : Int) := by
        push_cast
        ring
      rw [hc]

/-- The frequency mapping of a non-empty run of one symbol: a single entry
holding the wrapped occurrence count. -/
theorem get_frequencies_replicate (c : Char) (n : Nat) (h : 1 ≤ n) :
    get_frequencies (List.replicate n c) = [(c, wrapI32 (n : Int))] := by
  cases n with
  | zero => omega
  | succ m =>
    rw [get_frequencies_def, List.replicate_succ, List.foldl_cons]
    have hb : frequencyBump [] c = [(c, 1)] := rfl
    rw [hb, foldl_bump_replicate c m 1]
    by_cases h0 : m = 0
    · subst h0
      simp [wrapI32_one]
    · rw [if_neg h0]
      have hc : (1 : Int) + (m : Int) = ((m + 1 : Nat) : Int) := by
        push_cast
        ring
      rw [hc]

/-! ## Weight-tree basics -/

namespace WTree

theorem wsum_eq_sum (t : WTree) : t.wsum = t.leavesW.sum := by
  induction t with
  | leaf w => simp [wsum, leavesW]
  | node l r ihl ihr => simp [wsum, leavesW, ihl, ihr]

theorem card_leavesW_pos (t : WTree) : 1 ≤ Multiset.card t.leavesW := by
  induction t with
  | leaf w => simp [leavesW]
  | node l r ihl ihr =>
    simp only [leavesW, Multiset.card_add]
    omega

theorem exists_mem_leavesW (t : WTree) : ∃ v, v ∈ t.leavesW := by
  induction t with
  | leaf w => exact ⟨w, by simp [leavesW]⟩
  | node l r ihl ihr =>
    obtain ⟨v, hv⟩ := ihl
    exact ⟨v, by simp [leavesW, hv]⟩

theorem le_wsum_of_mem {t : WTree} {v : Nat} (h : v ∈ t.leavesW) : v ≤ t.wsum := by
  rw [wsum_eq_sum]
  exact Multiset.single_le_sum (fun x _ => Nat.zero_le x) v h

theorem le_wsum_of_all_le {t : WTree} {b : Nat} (h : ∀ v ∈ t.leavesW, b ≤ v) :
    b ≤ t.wsum := by
  obtain ⟨v, hv⟩ := t.exists_mem_leavesW
  exact le_trans (h v hv) (le_wsum_of_mem hv)

theorem cost_node_comm (l r : WTree) : (node l r).cost = (node r l).cost := by
  simp only [cost]
  omega

theorem leavesW_node_comm (l r : WTree) : (node l r).leavesW = (node r l).leavesW := by
  simp only [leavesW]
  rw [add_comm]

end WTree

theorem two_mul_le_sum {M : Multiset Nat} {b : Nat} (hcard : 2 ≤ Multiset.card M)
    (h : ∀ v ∈ M, b ≤ v) : b + b ≤ M.sum := by
  have hM : M ≠ 0 := by
    intro h0
    rw [h0] at hcard
    simp at hcard
  obtain ⟨x, hx⟩ := Multiset.exists_mem_of_ne_zero hM
  obtain ⟨M1, rfl⟩ := Multiset.exists_cons_of_mem hx
  have hM1 : M1 ≠ 0 := by
    intro h0
    rw [h0] at hcard
    simp at hcard
  obtain ⟨y, hy⟩ := Multiset.exists_mem_of_ne_zero hM1
  obtain ⟨M2, rfl⟩ := Multiset.exists_cons_of_mem hy
  simp only [Multiset.sum_cons]
  have hx2 : b ≤ x := h x (by simp)
  have hy2 : b ≤ y := h y (by simp)
  omega

/-! ## The three surgeries: removal, relabelling, pair contraction -/

theorem Removed.removed_leaves {u d s : Nat} {t t' : WTree} (h : Removed u d s t t') :
    t.leavesW = u ::ₘ t'.leavesW := by
  induction h with
  | left S =>
    ext c
    simp [WTree.leavesW, Multiset.count_cons, Multiset.count_singleton]
  | right S =>
    ext c
    simp [WTree.leavesW, Multiset.count_cons, Multiset.count_singleton]
    try omega
  | inl R h ih =>
    ext c
    have hc := congrArg (Multiset.count c) ih
    simp only [WTree.leavesW, Multiset.count_add, Multiset.count_cons] at hc ⊢
    omega
  | inr L h ih =>
    ext c
    have hc := congrArg (Multiset.count c) ih
    simp only [WTree.leavesW, Multiset.count_add, Multiset.count_cons] at hc ⊢
    omega

theorem Removed.removed_wsum {u d s : Nat} {t t' : WTree} (h : Removed u d s t t') :
    t.wsum = t'.wsum + u := by
  rw [WTree.wsum_eq_sum, WTree.wsum_eq_sum, h.removed_leaves, Multiset.sum_cons]
  omega

theorem Removed.removed_cost {u d s : Nat} {t t' : WTree} (h : Removed u d s t t') :
    t.cost = t'.cost + d * u + s := by
  induction h with
  | left S => simp [WTree.cost, WTree.wsum]; try omega
  | right S => simp [WTree.cost, WTree.wsum]; try omega
  | inl R h ih =>
    have hw := h.removed_wsum
    have hmul : (d + 1) * u = d * u + u := by ring
    simp only [WTree.cost]
    linarith
  | inr L h ih =>
    have hw := h.removed_wsum
    have hmul : (d + 1) * u = d * u + u := by ring
    simp only [WTree.cost]
    linarith

theorem Removed.depth_pos {u d s : Nat} {t t' : WTree} (h : Removed u d s t t') :
    1 ≤ d := by
  induction h <;> omega

theorem Removed.sibling_bound {u d s : Nat} {t t' : WTree} (h : Removed u d s t t')
    {b : Nat} (hb : ∀ v ∈ t'.leavesW, b ≤ v) : b ≤ s := by
  induction h with
  | left S => exact WTree.le_wsum_of_all_le hb
  | right S => exact WTree.le_wsum_of_all_le hb
  | inl R h ih =>
    refine ih (fun v hv => hb v ?_)
    simp only [WTree.leavesW, Multiset.mem_add]
    exact Or.inl hv
  | inr L h ih =>
    refine ih (fun v hv => hb v ?_)
    simp only [WTree.leavesW, Multiset.mem_add]
    exact Or.inr hv

theorem Removed.toReplaced {u d s : Nat} {t t' : WTree} (h : Removed u d s t t')
    (w : Nat) : ∃ t2, Replaced u w d t t2 := by
  induction h with
  | left S => exact ⟨.node (.leaf w) S, Replaced.inl S Replaced.here⟩
  | right S => exact ⟨.node S (.leaf w), Replaced.inr S Replaced.here⟩
  | inl R h ih =>
    obtain ⟨L2, hL⟩ := ih
    exact ⟨.node L2 R, Replaced.inl R hL⟩
  | inr L h ih =>
    obtain ⟨R2, hR⟩ := ih
    exact ⟨.node L R2, Replaced.inr L hR⟩

theorem Replaced.replaced_leaves {u w d : Nat} {t t' : WTree} (h : Replaced u w d t t') :
    w ::ₘ t.leavesW = u ::ₘ t'.leavesW := by
  induction h with
  | here =>
    ext c
    simp [WTree.leavesW, Multiset.count_cons, Multiset.count_singleton]
    omega
  | inl R h ih =>
    ext c
    have hc := congrArg (Multiset.count c) ih
    simp only [WTree.leavesW, Multiset.count_add, Multiset.count_cons] at hc ⊢
    omega
  | inr L h ih =>
    ext c
    have hc := congrArg (Multiset.count c) ih
    simp only [WTree.leavesW, Multiset.count_add, Multiset.count_cons] at hc ⊢
    omega

theorem Replaced.replaced_wsum {u w d : Nat} {t t' : WTree} (h : Replaced u w d t t') :
    t.wsum + w = t'.wsum + u := by
  have hs := congrArg Multiset.sum h.replaced_leaves
  simp only [Multiset.sum_cons] at hs
  rw [WTree.wsum_eq_sum, WTree.wsum_eq_sum]
  omega

theorem Replaced.replaced_cost {u w d : Nat} {t t' : WTree} (h : Replaced u w d t t') :
    t.cost + d * w = t'.cost + d * u := by
  induction h with
  | here => simp [WTree.cost]
  | inl R h ih =>
    have hw := h.replaced_wsum
    have hm1 : (d + 1) * w = d * w + w := by ring
    have hm2 : (d + 1) * u = d * u + u := by ring
    simp only [WTree.cost]
    linarith
  | inr L h ih =>
    have hw := h.replaced_wsum
    have hm1 : (d + 1) * w = d * w + w := by ring
    have hm2 : (d + 1) * u = d * u + u := by ring
    simp only [WTree.cost]
    linarith

theorem Replaced.exists_of_mem {u : Nat} {t : WTree} (hmem : u ∈ t.leavesW) (w : Nat) :
    ∃ d t', Replaced u w d t t' := by
  induction t with
  | leaf x =>
    simp [WTree.leavesW] at hmem
    subst hmem
    exact ⟨0, .leaf w, Replaced.here⟩
  | node l r ihl ihr =>
    simp only [WTree.leavesW, Multiset.mem_add] at hmem
    rcases hmem with hm | hm
    · obtain ⟨d, l', hl⟩ := ihl hm
      exact ⟨d + 1, .node l' r, Replaced.inl r hl⟩
    · obtain ⟨d, r', hr⟩ := ihr hm
      exact ⟨d + 1, .node l r', Replaced.inr l hr⟩

theorem PairMerged.merged_leaves {a b z d : Nat} {t t' : WTree} (h : PairMerged a b z d t t') :
    (a + b) ::ₘ t.leavesW = a ::ₘ z ::ₘ t'.leavesW := by
  induction h with
  | hereL =>
    ext c
    simp [WTree.leavesW, Multiset.count_cons, Multiset.count_singleton, Multiset.count_add]
    omega
  | hereR =>
    ext c
    simp [WTree.leavesW, Multiset.count_cons, Multiset.count_singleton, Multiset.count_add]
    omega
  | inl R h ih =>
    ext c
    have hc := congrArg (Multiset.count c) ih
    simp only [WTree.leavesW, Multiset.count_add, Multiset.count_cons] at hc ⊢
    omega
  | inr L h ih =>
    ext c
    have hc := congrArg (Multiset.count c) ih
    simp only [WTree.leavesW, Multiset.count_add, Multiset.count_cons] at hc ⊢
    omega

theorem PairMerged.merged_wsum {a b z d : Nat} {t t' : WTree} (h : PairMerged a b z d t t') :
    t.wsum + b = t'.wsum + z := by
  have hs := congrArg Multiset.sum h.merged_leaves
  simp only [Multiset.sum_cons] at hs
  rw [WTree.wsum_eq_sum, WTree.wsum_eq_sum]
  omega

theorem PairMerged.merged_cost {a b z d : Nat} {t t' : WTree} (h : PairMerged a b z d t t') :
    t'.cost + (a + z) + d * z = t.cost + d * b := by
  induction h with
  | hereL => simp [WTree.cost, WTree.wsum]
  | hereR => simp [WTree.cost, WTree.wsum]; omega
  | inl R h ih =>
    have hw := h.merged_wsum
    have hm1 : (d + 1) * z = d * z + z := by ring
    have hm2 : (d + 1) * b = d * b + b := by ring
    simp only [WTree.cost]
    linarith
  | inr L h ih =>
    have hw := h.merged_wsum
    have hm1 : (d + 1) * z = d * z + z := by ring
    have hm2 : (d + 1) * b = d * b + b := by ring
    simp only [WTree.cost]
    linarith

/-- Locating a removable leaf: any leaf occurrence in a proper (two-child)
tree can be removed, and its sibling is either a subtree with at least two
leaves, or a single leaf `z` — in which case the parent pair can instead be
contracted to a leaf of weight `u + b` for any `b`. -/
theorem removed_anatomy (t : WTree) :
    ∀ u : Nat, u ∈ t.leavesW → (∃ l r, t = .node l r) →
    ∃ d s t', Removed u d s t t' ∧
      ((∃ S : WTree, s = S.wsum ∧ S.leavesW ≤ t'.leavesW ∧ 2 ≤ Multiset.card S.leavesW)
       ∨ (∃ z e, d = e + 1 ∧ s = z ∧ ∀ b : Nat, ∃ t2, PairMerged u b z e t t2)) := by
  induction t with
  | leaf w =>
    intro u _ hnode
    obtain ⟨l, r, h⟩ := hnode
    simp at h
  | node L R ihl ihr =>
    intro u hu _
    simp only [WTree.leavesW, Multiset.mem_add] at hu
    rcases hu with hu | hu
    · cases L with
      | leaf w =>
        have huw : u = w := by simpa [WTree.leavesW] using hu
        subst huw
        cases R with
        | leaf z =>
          have hrm : Removed u 1 z (.node (.leaf u) (.leaf z)) (.leaf z) :=
            Removed.left (.leaf z)
          exact ⟨1, z, .leaf z, hrm, Or.inr ⟨z, 0, rfl, rfl, fun b =>
            ⟨.leaf (u + b), PairMerged.hereL⟩⟩⟩
        | node R1 R2 =>
          refine ⟨1, (WTree.node R1 R2).wsum, .node R1 R2, Removed.left _,
            Or.inl ⟨.node R1 R2, rfl, le_refl _, ?_⟩⟩
          simp only [WTree.leavesW, Multiset.card_add]
          have h1 := R1.card_leavesW_pos
          have h2 := R2.card_leavesW_pos
          omega
      | node L1 L2 =>
        obtain ⟨d, s, L', hrem, hdi⟩ := ihl u hu ⟨L1, L2, rfl⟩
        refine ⟨d + 1, s, .node L' R, Removed.inl R hrem, ?_⟩
        rcases hdi with ⟨S, hs, hle, hcard⟩ | ⟨z, e, hd, hs, hpm⟩
        · refine Or.inl ⟨S, hs, le_trans hle ?_, hcard⟩
          simp only [WTree.leavesW]
          exact Multiset.le_add_right _ _
        · refine Or.inr ⟨z, e + 1, by omega, hs, fun b => ?_⟩
          obtain ⟨t2, hpm2⟩ := hpm b
          exact ⟨.node t2 R, PairMerged.inl R hpm2⟩
    · cases R with
      | leaf w =>
        have huw : u = w := by simpa [WTree.leavesW] using hu
        subst huw
        cases L with
        | leaf z =>
          have hrm : Removed u 1 z (.node (.leaf z) (.leaf u)) (.leaf z) :=
            Removed.right (.leaf z)
          exact ⟨1, z, .leaf z, hrm, Or.inr ⟨z, 0, rfl, rfl, fun b =>
            ⟨.leaf (u + b), PairMerged.hereR⟩⟩⟩
        | node L1 L2 =>
          refine ⟨1, (WTree.node L1 L2).wsum, .node L1 L2, Removed.right _,
            Or.inl ⟨.node L1 L2, rfl, le_refl _, ?_⟩⟩
          simp only [WTree.leavesW, Multiset.card_add]
          have h1 := L1.card_leavesW_pos
          have h2 := L2.card_leavesW_pos
          omega
      | node R1 R2 =>
        obtain ⟨d, s, R', hrem, hdi⟩ := ihr u hu ⟨R1, R2, rfl⟩
        refine ⟨d + 1, s, .node L R', Removed.inr L hrem, ?_⟩
        rcases hdi with ⟨S, hs, hle, hcard⟩ | ⟨z, e, hd, hs, hpm⟩
        · refine Or.inl ⟨S, hs, le_trans hle ?_, hcard⟩
          simp only [WTree.leavesW]
          exact Multiset.le_add_left _ _
        · refine Or.inr ⟨z, e + 1, by omega, hs, fun b => ?_⟩
          obtain ⟨t2, hpm2⟩ := hpm b
          exact ⟨.node L t2, PairMerged.inr L hpm2⟩

/-- Merging the root-attached leaf of weight `β` with any leaf of weight `α`
inside the sibling subtree never costs more than keeping `β` at the root,
provided every other leaf of the subtree weighs at least `β`. -/
theorem attachMin : ∀ (R : WTree) (β α : Nat) (X : Multiset Nat),
    R.leavesW = α ::ₘ X → (∀ v ∈ X, β ≤ v) →
    ∃ T' : WTree, T'.leavesW = (α + β) ::ₘ X ∧
      T'.cost + α + β ≤ (WTree.node (.leaf β) R).cost := by
  intro R
  induction R with
  | leaf w =>
    intro β α X hleaves _
    have hX : α = w ∧ X = 0 := by
      have hcard := congrArg Multiset.card hleaves
      simp only [WTree.leavesW, Multiset.card_singleton, Multiset.card_cons] at hcard
      have hX0 : X = 0 := Multiset.card_eq_zero.mp (by omega)
      subst hX0
      have hw : w = α := by simpa [WTree.leavesW] using hleaves
      exact ⟨hw.symm, rfl⟩
    obtain ⟨rfl, rfl⟩ := hX
    refine ⟨.leaf (α + β), by simp [WTree.leavesW], ?_⟩
    simp [WTree.cost, WTree.wsum]
    omega
  | node R1 R2 ih1 ih2 =>
    intro β α X hleaves hX
    have hmem : α ∈ R1.leavesW ∨ α ∈ R2.leavesW := by
      have : α ∈ (WTree.node R1 R2).leavesW := by
        rw [hleaves]
        simp
      simpa [WTree.leavesW] using this
    rcases hmem with hm | hm
    · obtain ⟨Y1, hY1⟩ := Multiset.exists_cons_of_mem hm
      have hXeq : X = Y1 + R2.leavesW := by
        have h1 : α ::ₘ (Y1 + R2.leavesW) = α ::ₘ X := by
          rw [← Multiset.cons_add, ← hY1]
          simpa [WTree.leavesW] using hleaves
        exact (Multiset.cons_inj_right α).mp h1 |>.symm
      have hsub : ∀ v ∈ Y1, β ≤ v := fun v hv => hX v (by rw [hXeq]; simp [hv])
      obtain ⟨T1, hT1leaves, hT1cost⟩ := ih1 β α Y1 hY1 hsub
      refine ⟨.node T1 R2, ?_, ?_⟩
      · rw [hXeq]
        simp only [WTree.leavesW, hT1leaves, Multiset.cons_add]
      · have hw1 : T1.wsum = R1.wsum + β := by
          rw [WTree.wsum_eq_sum, WTree.wsum_eq_sum, hT1leaves, hY1]
          simp only [Multiset.sum_cons]
          omega
        have hbound : β ≤ R2.wsum := by
          refine WTree.le_wsum_of_all_le (fun v hv => hX v ?_)
          rw [hXeq]
          simp [hv]
        simp only [WTree.cost, WTree.wsum] at hT1cost ⊢
        omega
    · obtain ⟨Y2, hY2⟩ := Multiset.exists_cons_of_mem hm
      have hXeq : X = R1.leavesW + Y2 := by
        have h1 : α ::ₘ (R1.leavesW + Y2) = α ::ₘ X := by
          have : R1.leavesW + α ::ₘ Y2 = α ::ₘ (R1.leavesW + Y2) := by
            ext c
            simp [Multiset.count_add, Multiset.count_cons]
            try omega
          rw [← this, ← hY2]
          simpa [WTree.leavesW] using hleaves
        exact (Multiset.cons_inj_right α).mp h1 |>.symm
      have hsub : ∀ v ∈ Y2, β ≤ v := fun v hv => hX v (by rw [hXeq]; simp [hv])
      obtain ⟨T2, hT2leaves, hT2cost⟩ := ih2 β α Y2 hY2 hsub
      refine ⟨.node R1 T2, ?_, ?_⟩
      · rw [hXeq]
        simp only [WTree.leavesW, hT2leaves]
        ext c
        simp [Multiset.count_add, Multiset.count_cons]
        try omega
      · have hw2 : T2.wsum = R2.wsum + β := by
          rw [WTree.wsum_eq_sum, WTree.wsum_eq_sum, hT2leaves, hY2]
          simp only [Multiset.sum_cons]
          omega
        have hbound : β ≤ R1.wsum := by
          refine WTree.le_wsum_of_all_le (fun v hv => hX v ?_)
          rw [hXeq]
          simp [hv]
        simp only [WTree.cost, WTree.wsum] at hT2cost ⊢
        omega

/-- The split exchange: when the two minimal weights `a` and `b` sit in the
two different subtrees of `node L R`, the tree can be rebuilt over the merged
weight `a + b` without the total cost dropping by more than `a + b`.  The
construction compares the depths of the two occurrences: the deeper minimum
stays put and absorbs the other (removing that one costs its depth-weight
plus its sibling, which the bounds cover); at equal depths, either `a`'s
sibling subtree is rich enough to pay, or it is a single leaf whose weight
trades places with `b`. -/
theorem exchange_split_nodes (L R : WTree) (a b : Nat) (ML MR : Multiset Nat)
    (hLn : ∃ l r, L = .node l r) (hRn : ∃ l r, R = .node l r)
    (hL : L.leavesW = a ::ₘ ML) (hR : R.leavesW = b ::ₘ MR)
    (hmemR : ∀ v ∈ MR, a ≤ v) (hmemML : ∀ v ∈ ML, b ≤ v) (hab : a ≤ b) :
    ∃ T' : WTree, T'.leavesW = (a + b) ::ₘ (ML + MR) ∧
      T'.cost + a + b ≤ (WTree.node L R).cost := by
  have haL : a ∈ L.leavesW := by rw [hL]; simp
  have hbR : b ∈ R.leavesW := by rw [hR]; simp
  obtain ⟨dA, sA, Lm, hRemA, dichA⟩ := removed_anatomy L a haL hLn
  obtain ⟨dB, sB, Rm, hRemB, dichB⟩ := removed_anatomy R b hbR hRn
  have hLm : Lm.leavesW = ML := by
    have := hRemA.removed_leaves
    rw [hL] at this
    exact ((Multiset.cons_inj_right a).mp this.symm)
  have hRm : Rm.leavesW = MR := by
    have := hRemB.removed_leaves
    rw [hR] at this
    exact ((Multiset.cons_inj_right b).mp this.symm)
  have hsA : b ≤ sA := hRemA.sibling_bound (by rw [hLm]; exact hmemML)
  have hsB : a ≤ sB := hRemB.sibling_bound (by rw [hRm]; exact hmemR)
  obtain ⟨Rb, hRepB⟩ := hRemB.toReplaced (a + b)
  obtain ⟨La, hRepA⟩ := hRemA.toReplaced (a + b)
  have hRb : Rb.leavesW = (a + b) ::ₘ MR := by
    have hl := hRepB.replaced_leaves
    rw [hR] at hl
    ext c
    have hc := congrArg (Multiset.count c) hl
    simp only [Multiset.count_cons] at hc ⊢
    omega
  have hLa : La.leavesW = (a + b) ::ₘ ML := by
    have hl := hRepA.replaced_leaves
    rw [hL] at hl
    ext c
    have hc := congrArg (Multiset.count c) hl
    simp only [Multiset.count_cons] at hc ⊢
    omega
  have buildM1 : dB * a + a + b ≤ dA * a + sA →
      ∃ T' : WTree, T'.leavesW = (a + b) ::ₘ (ML + MR) ∧
        T'.cost + a + b ≤ (WTree.node L R).cost := by
    intro key
    refine ⟨.node Lm Rb, ?_, ?_⟩
    · simp only [WTree.leavesW, hLm, hRb]
      ext c
      simp only [Multiset.count_add, Multiset.count_cons]
      omega
    · have e1 := hRemA.removed_cost
      have e2 := hRepB.replaced_cost
      have e3 := hRemA.removed_wsum
      have e4 := hRepB.replaced_wsum
      have hexp : dB * (a + b) = dB * a + dB * b := by ring
      simp only [WTree.cost]
      linarith
  have buildM2 : dA * b + a + b ≤ dB * b + sB →
      ∃ T' : WTree, T'.leavesW = (a + b) ::ₘ (ML + MR) ∧
        T'.cost + a + b ≤ (WTree.node L R).cost := by
    intro key
    refine ⟨.node La Rm, ?_, ?_⟩
    · simp only [WTree.leavesW, hLa, hRm]
      ext c
      simp only [Multiset.count_add, Multiset.count_cons]
      omega
    · have e1 := hRemB.removed_cost
      have e2 := hRepA.replaced_cost
      have e3 := hRemB.removed_wsum
      have e4 := hRepA.replaced_wsum
      have hexp : dA * (a + b) = dA * a + dA * b := by ring
      simp only [WTree.cost]
      linarith
  by_cases hd1 : dB + 1 ≤ dA
  · refine buildM1 ?_
    have hmul : (dB + 1) * a ≤ dA * a := Nat.mul_le_mul_right a hd1
    have hexp : (dB + 1) * a = dB * a + a := by ring
    omega
  · by_cases hd2 : dA + 1 ≤ dB
    · refine buildM2 ?_
      have hmul : (dA + 1) * b ≤ dB * b := Nat.mul_le_mul_right b hd2
      have hexp : (dA + 1) * b = dA * b + b := by ring
      omega
    · have hdd : dA = dB := by omega
      rcases dichA with ⟨S, hs, hle, hcard⟩ | ⟨z, e, hdAe, hsz, hpm⟩
      · refine buildM1 ?_
        have hsum : b + b ≤ S.leavesW.sum := by
          refine two_mul_le_sum hcard (fun v hv => ?_)
          have hvML : v ∈ ML := by
            rw [← hLm]
            exact Multiset.mem_of_le hle hv
          exact hmemML v hvML
        have hSsum : sA = S.leavesW.sum := by rw [hs, WTree.wsum_eq_sum]
        subst hdd
        omega
      · obtain ⟨Lp, hpmb⟩ := hpm b
        obtain ⟨Rz, hRepz⟩ := hRemB.toReplaced z
        have hRz : Rz.leavesW = z ::ₘ MR := by
          have hl := hRepz.replaced_leaves
          rw [hR] at hl
          ext c
          have hc := congrArg (Multiset.count c) hl
          simp only [Multiset.count_cons] at hc ⊢
          omega
        have hLp : z ::ₘ Lp.leavesW = (a + b) ::ₘ ML := by
          have hl := hpmb.merged_leaves
          rw [hL] at hl
          ext c
          have hc := congrArg (Multiset.count c) hl
          simp only [Multiset.count_cons] at hc ⊢
          omega
        refine ⟨.node Lp Rz, ?_, ?_⟩
        · simp only [WTree.leavesW, hRz]
          ext c
          have hc := congrArg (Multiset.count c) hLp
          simp only [Multiset.count_cons] at hc
          simp only [Multiset.count_add, Multiset.count_cons]
          omega
        · have hP := hpmb.merged_cost
          have hQ := hRepz.replaced_cost
          have hW1 := hpmb.merged_wsum
          have hW2 := hRepz.replaced_wsum
          have hdB : dB = e + 1 := by omega
          subst hdB
          have hx1 : (e + 1) * z = e * z + z := by ring
          have hx2 : (e + 1) * b = e * b + b := by ring
          simp only [WTree.cost]
          linarith

/-- The split exchange: when the two minimal weights `a` and `b` sit in the
two different subtrees of `node L R`, the tree can be rebuilt over the merged
weight `a + b` while the total cost drops by at least `a + b`. -/
theorem exchange_split (L R : WTree) (a b : Nat) (ML MR : Multiset Nat)
    (hL : L.leavesW = a ::ₘ ML) (hR : R.leavesW = b ::ₘ MR)
    (hmin1 : ∀ v ∈ (WTree.node L R).leavesW, a ≤ v)
    (hmin2 : ∀ v ∈ b ::ₘ (ML + MR), b ≤ v) :
    ∃ T' : WTree, T'.leavesW = (a + b) ::ₘ (ML + MR) ∧
      T'.cost + a + b ≤ (WTree.node L R).cost := by
  have hmemR : ∀ v ∈ MR, a ≤ v := by
    intro v hv
    refine hmin1 v ?_
    simp [WTree.leavesW, hR, hv]
  have hmemML : ∀ v ∈ ML, b ≤ v := by
    intro v hv
    exact hmin2 v (by simp [hv])
  have hab : a ≤ b := by
    refine hmin1 b ?_
    simp [WTree.leavesW, hR]
  cases L with
  | leaf w =>
    have hwa : w = a ∧ ML = 0 := by
      have hcard := congrArg Multiset.card hL
      simp only [WTree.leavesW, Multiset.card_singleton, Multiset.card_cons] at hcard
      have hML : ML = 0 := Multiset.card_eq_zero.mp (by omega)
      subst hML
      have hwa2 : w = a := by simpa [WTree.leavesW] using hL
      exact ⟨hwa2, rfl⟩
    obtain ⟨rfl, rfl⟩ := hwa
    obtain ⟨T', hTl, hTc⟩ := attachMin R w b MR hR hmemR
    refine ⟨T', ?_, ?_⟩
    · rw [hTl]
      simp [Nat.add_comm b w]
    · calc T'.cost + w + b = T'.cost + b + w := by omega
        _ ≤ (WTree.node (.leaf w) R).cost := hTc
  | node L1 L2 =>
  cases R with
  | leaf w =>
    have hwb : w = b ∧ MR = 0 := by
      have hcard := congrArg Multiset.card hR
      simp only [WTree.leavesW, Multiset.card_singleton, Multiset.card_cons] at hcard
      have hMR : MR = 0 := Multiset.card_eq_zero.mp (by omega)
      subst hMR
      have hwb2 : w = b := by simpa [WTree.leavesW] using hR
      exact ⟨hwb2, rfl⟩
    obtain ⟨rfl, rfl⟩ := hwb
    obtain ⟨T', hTl, hTc⟩ := attachMin (WTree.node L1 L2) w a ML hL hmemML
    refine ⟨T', ?_, ?_⟩
    · rw [hTl]
      simp
    · calc T'.cost + a + w = T'.cost + a + w := rfl
        _ ≤ (WTree.node (.leaf w) (.node L1 L2)).cost := hTc
        _ = (WTree.node (.node L1 L2) (.leaf w)).cost := WTree.cost_node_comm _ _
  | node R1 R2 =>
    exact exchange_split_nodes (.node L1 L2) (.node R1 R2) a b ML MR
      ⟨L1, L2, rfl⟩ ⟨R1, R2, rfl⟩ hL hR hmemR hmemML hab

/-- The exchange lemma: any tree over a weight multiset containing the two
minima `a` and `b` can be rebuilt over the multiset with `a, b` merged into
`a + b`, lowering the cost by at least `a + b`. -/
theorem exchange (T : WTree) : ∀ (a b : Nat) (X : Multiset Nat),
    T.leavesW = a ::ₘ b ::ₘ X →
    (∀ v ∈ T.leavesW, a ≤ v) →
    (∀ v ∈ b ::ₘ X, b ≤ v) →
    ∃ T' : WTree, T'.leavesW = (a + b) ::ₘ X ∧ T'.cost + a + b ≤ T.cost := by
  induction T with
  | leaf w =>
    intro a b X hleaves _ _
    have := congrArg Multiset.card hleaves
    simp [WTree.leavesW] at this
    try omega
  | node L R ihl ihr =>
    intro a b X hleaves hmin1 hmin2
    have hsum : L.leavesW + R.leavesW = a ::ₘ b ::ₘ X := by
      simpa [WTree.leavesW] using hleaves
    have haLR : a ∈ L.leavesW ∨ a ∈ R.leavesW := by
      have : a ∈ L.leavesW + R.leavesW := by rw [hsum]; simp
      simpa using this
    rcases haLR with haL | haR
    · obtain ⟨ML, hML⟩ := Multiset.exists_cons_of_mem haL
      have hrest : ML + R.leavesW = b ::ₘ X := by
        have : a ::ₘ (ML + R.leavesW) = a ::ₘ b ::ₘ X := by
          rw [← Multiset.cons_add, ← hML, hsum]
        exact (Multiset.cons_inj_right a).mp this
      have hbMLR : b ∈ ML ∨ b ∈ R.leavesW := by
        have : b ∈ ML + R.leavesW := by rw [hrest]; simp
        simpa using this
      rcases hbMLR with hbML | hbR
      · obtain ⟨ML2, hML2⟩ := Multiset.exists_cons_of_mem hbML
        have hX : X = ML2 + R.leavesW := by
          have : b ::ₘ (ML2 + R.leavesW) = b ::ₘ X := by
            rw [← Multiset.cons_add, ← hML2, hrest]
          exact ((Multiset.cons_inj_right b).mp this).symm
        have hLl : L.leavesW = a ::ₘ b ::ₘ ML2 := by rw [hML, hML2]
        obtain ⟨L', hL'l, hL'c⟩ := ihl a b ML2 hLl
          (fun v hv => hmin1 v (by simp [WTree.leavesW, hv]))
          (fun v hv => hmin2 v (by
            rcases Multiset.mem_cons.mp hv with rfl | hv2
            · simp
            · have : v ∈ X := by rw [hX]; simp [hv2]
              simp [this]))
        refine ⟨.node L' R, ?_, ?_⟩
        · simp only [WTree.leavesW, hL'l, hX, Multiset.cons_add]
        · have hw : L'.wsum = L.wsum := by
            rw [WTree.wsum_eq_sum, WTree.wsum_eq_sum, hL'l, hLl]
            simp only [Multiset.sum_cons]
            omega
          simp only [WTree.cost]
          omega
      · obtain ⟨MR, hMR⟩ := Multiset.exists_cons_of_mem hbR
        have hX : X = ML + MR := by
          have : b ::ₘ (ML + MR) = b ::ₘ X := by
            have hswap : ML + b ::ₘ MR = b ::ₘ (ML + MR) := by
              ext c
              simp only [Multiset.count_add, Multiset.count_cons]
              omega
            rw [← hswap, ← hMR, hrest]
          exact ((Multiset.cons_inj_right b).mp this).symm
        obtain ⟨T', hTl, hTc⟩ := exchange_split L R a b ML MR hML hMR hmin1
          (by rw [← hX]; exact hmin2)
        exact ⟨T', by rw [hTl, hX], hTc⟩
    · obtain ⟨MR, hMR⟩ := Multiset.exists_cons_of_mem haR
      have hrest : L.leavesW + MR = b ::ₘ X := by
        have hswap : L.leavesW + a ::ₘ MR = a ::ₘ (L.leavesW + MR) := by
          ext c
          simp only [Multiset.count_add, Multiset.count_cons]
          omega
        have : a ::ₘ (L.leavesW + MR) = a ::ₘ b ::ₘ X := by
          rw [← hswap, ← hMR, hsum]
        exact (Multiset.cons_inj_right a).mp this
      have hbLMR : b ∈ L.leavesW ∨ b ∈ MR := by
        have : b ∈ L.leavesW + MR := by rw [hrest]; simp
        simpa using this
      rcases hbLMR with hbL | hbMR
      · obtain ⟨ML, hML⟩ := Multiset.exists_cons_of_mem hbL
        have hX : X = ML + MR := by
          have hswap : b ::ₘ ML + MR = b ::ₘ (ML + MR) := by
            simp [Multiset.cons_add]
          have : b ::ₘ (ML + MR) = b ::ₘ X := by
            rw [← hswap, ← hML, hrest]
          exact ((Multiset.cons_inj_right b).mp this).symm
        obtain ⟨T', hTl, hTc⟩ := exchange_split R L a b MR ML hMR hML
          (fun v hv => hmin1 v (by
            simp only [WTree.leavesW, Multiset.mem_add] at hv ⊢
            exact hv.symm))
          (by
            intro v hv
            refine hmin2 v ?_
            rcases Multiset.mem_cons.mp hv with rfl | hv2
            · simp
            · have : v ∈ X := by rw [hX, Multiset.mem_add]; exact (Multiset.mem_add.mp hv2).symm
              simp [this])
        refine ⟨T', ?_, ?_⟩
        · rw [hTl, hX]
          ext c
          simp only [Multiset.count_cons, Multiset.count_add]
          omega
        · calc T'.cost + a + b ≤ (WTree.node R L).cost := hTc
            _ = (WTree.node L R).cost := WTree.cost_node_comm _ _
      · obtain ⟨MR2, hMR2⟩ := Multiset.exists_cons_of_mem hbMR
        have hX : X = L.leavesW + MR2 := by
          have hswap : L.leavesW + b ::ₘ MR2 = b ::ₘ (L.leavesW + MR2) := by
            ext c
            simp only [Multiset.count_add, Multiset.count_cons]
            omega
          have : b ::ₘ (L.leavesW + MR2) = b ::ₘ X := by
            rw [← hswap, ← hMR2, hrest]
          exact ((Multiset.cons_inj_right b).mp this).symm
        have hRl : R.leavesW = a ::ₘ b ::ₘ MR2 := by rw [hMR, hMR2]
        obtain ⟨R', hR'l, hR'c⟩ := ihr a b MR2 hRl
          (fun v hv => hmin1 v (by simp [WTree.leavesW, hv]))
          (fun v hv => hmin2 v (by
            rcases Multiset.mem_cons.mp hv with rfl | hv2
            · simp
            · have : v ∈ X := by rw [hX]; simp [hv2]
              simp [this]))
        refine ⟨.node L R', ?_, ?_⟩
        · rw [hX]
          simp only [WTree.leavesW, hR'l]
          ext c
          simp only [Multiset.count_add, Multiset.count_cons]
          omega
        · have hw : R'.wsum = R.wsum := by
            rw [WTree.wsum_eq_sum, WTree.wsum_eq_sum, hR'l, hRl]
            simp only [Multiset.sum_cons]
            omega
          simp only [WTree.cost]
          omega

/-- Greedy merging is optimal: its accumulated merge cost is a lower bound
realised by no tree over the same weight multiset for less. -/
theorem huffSteps_le_cost {M : Multiset Nat} {k : Nat} (h : HuffSteps M k) :
    ∀ T : WTree, T.leavesW = M → k ≤ T.cost := by
  induction h with
  | single w => intro T _; exact Nat.zero_le _
  | step M a b k ha hb hmin1 hmin2 _ ih =>
    intro T hT
    have hM1 : M = a ::ₘ M.erase a := (Multiset.cons_erase ha).symm
    have hM2 : M.erase a = b ::ₘ (M.erase a).erase b := (Multiset.cons_erase hb).symm
    have hM : M = a ::ₘ b ::ₘ (M.erase a).erase b := by
      conv_lhs => rw [hM1, hM2]
    obtain ⟨T', hTl, hTc⟩ := exchange T a b ((M.erase a).erase b)
      (by rw [hT]; exact hM)
      (by rw [hT]; exact hmin1)
      (by rw [← hM2]; exact hmin2)
    have := ih T' hTl
    omega

/-! ## The trie of a prefix-free code -/

theorem mem_stripBit {b : Bool} {l : List (Nat × List Bool)} {e' : Nat × List Bool}
    (h : e' ∈ stripBit b l) :
    ∃ e ∈ l, e.2.head? = some b ∧ e' = (e.1, e.2.tail) := by
  induction l with
  | nil => simp [stripBit] at h
  | cons e rest ih =>
    rw [stripBit] at h
    by_cases hb : e.2.head? = some b
    · rw [if_pos hb] at h
      rcases List.mem_cons.mp h with rfl | h2
      · exact ⟨e, by simp, hb, rfl⟩
      · obtain ⟨e0, he0, hh, he'⟩ := ih h2
        exact ⟨e0, by simp [he0], hh, he'⟩
    · rw [if_neg hb] at h
      obtain ⟨e0, he0, hh, he'⟩ := ih h
      exact ⟨e0, by simp [he0], hh, he'⟩

theorem stripBit_noPre {b : Bool} {l : List (Nat × List Bool)}
    (h : PairwiseNoPre l) : PairwiseNoPre (stripBit b l) := by
  induction l with
  | nil => simpa [stripBit, PairwiseNoPre] using h
  | cons e rest ih =>
    rw [PairwiseNoPre, List.pairwise_cons] at h
    obtain ⟨hrel, hrest⟩ := h
    rw [stripBit]
    by_cases hb : e.2.head? = some b
    · rw [if_pos hb, PairwiseNoPre, List.pairwise_cons]
      refine ⟨?_, ih hrest⟩
      intro e' he'
      obtain ⟨e0, he0, hh0, rfl⟩ := mem_stripBit he'
      have hr := hrel e0 he0
      have hce : e.2 = b :: e.2.tail := by
        cases hc : e.2 with
        | nil => rw [hc] at hb; simp at hb
        | cons x xs =>
          rw [hc] at hb
          simp at hb
          simp [hb]
      have hce0 : e0.2 = b :: e0.2.tail := by
        cases hc : e0.2 with
        | nil => rw [hc] at hh0; simp at hh0
        | cons x xs =>
          rw [hc] at hh0
          simp at hh0
          simp [hh0]
      constructor
      · intro hpre
        exact hr.1 (by rw [hce, hce0]; exact (List.cons_prefix_cons).mpr ⟨rfl, hpre⟩)
      · intro hpre
        exact hr.2 (by rw [hce, hce0]; exact (List.cons_prefix_cons).mpr ⟨rfl, hpre⟩)
    · rw [if_neg hb]
      exact ih hrest

theorem noPre_no_empty {l : List (Nat × List Bool)} (h : PairwiseNoPre l)
    (h2 : 2 ≤ l.length) : ∀ e ∈ l, e.2 ≠ [] := by
  intro e he hnil
  cases l with
  | nil => simp at h2
  | cons e1 rest =>
    cases rest with
    | nil => simp at h2
    | cons e2 rest2 =>
      rw [PairwiseNoPre, List.pairwise_cons] at h
      obtain ⟨hrel, hrest⟩ := h
      rcases List.mem_cons.mp he with rfl | he2
      · exact (hrel e2 (by simp)).1 (by rw [hnil]; exact List.nil_prefix)
      · exact (hrel e he2).2 (by rw [hnil]; exact List.nil_prefix)

theorem stripBit_all {b : Bool} {l : List (Nat × List Bool)}
    (hall : ∀ e ∈ l, e.2.head? = some b) :
    (stripBit b l).map Prod.fst = l.map Prod.fst ∧
    (stripBit b l).length = l.length := by
  induction l with
  | nil => simp [stripBit]
  | cons e rest ih =>
    have hb := hall e (by simp)
    rw [stripBit, if_pos hb]
    have := ih (fun e' he' => hall e' (by simp [he']))
    simp [this.1, this.2]

theorem mem_stripBit_self {b : Bool} {l : List (Nat × List Bool)} {e : Nat × List Bool}
    (he : e ∈ l) (hb : e.2.head? = some b) : (e.1, e.2.tail) ∈ stripBit b l := by
  induction l with
  | nil => simp at he
  | cons e1 rest ih =>
    rw [stripBit]
    rcases List.mem_cons.mp he with rfl | he2
    · rw [if_pos hb]
      simp
    · by_cases hb1 : e1.2.head? = some b
      · rw [if_pos hb1]
        simp [ih he2]
      · rw [if_neg hb1]
        exact ih he2

theorem stripBit_empty_heads {l : List (Nat × List Bool)} {b : Bool}
    (hne : ∀ e ∈ l, e.2 ≠ []) (hempty : stripBit b l = []) :
    ∀ e ∈ l, e.2.head? = some (!b) := by
  intro e he
  cases hc : e.2 with
  | nil => exact absurd hc (hne e he)
  | cons x xs =>
    have hx : x = !b := by
      by_contra hxne
      have hxb : x = b := by
        cases x <;> cases b <;> simp_all
      subst hxb
      have hmem : (e.1, e.2.tail) ∈ stripBit x l := mem_stripBit_self he (by simp [hc])
      rw [hempty] at hmem
      simp at hmem
    simp [hc, hx]

/-- Weight partition of a code list by the leading bit. -/
theorem stripBit_weights {l : List (Nat × List Bool)} (hne : ∀ e ∈ l, e.2 ≠ []) :
    (l.map Prod.fst : Multiset Nat) =
      ((stripBit false l).map Prod.fst : Multiset Nat) +
      ((stripBit true l).map Prod.fst : Multiset Nat) := by
  induction l with
  | nil => simp [stripBit]
  | cons e rest ih =>
    have hrest := ih (fun e' he' => hne e' (by simp [he']))
    cases hc : e.2 with
    | nil => exact absurd hc (hne e (by simp))
    | cons x xs =>
      cases x with
      | false =>
        rw [stripBit, stripBit, if_pos (by simp [hc]), if_neg (by simp [hc])]
        simp only [List.map_cons]
        ext c
        have hcount := congrArg (Multiset.count c) hrest
        simp only [← Multiset.cons_coe, Multiset.count_add, Multiset.count_cons] at hcount ⊢
        omega
      | true =>
        rw [stripBit, stripBit, if_neg (by simp [hc]), if_pos (by simp [hc])]
        simp only [List.map_cons]
        ext c
        have hcount := congrArg (Multiset.count c) hrest
        simp only [← Multiset.cons_coe, Multiset.count_add, Multiset.count_cons] at hcount ⊢
        omega

/-- Cost partition of a code list by the leading bit: one step down the tree
charges each entry its weight once. -/
theorem stripBit_costs {l : List (Nat × List Bool)} (hne : ∀ e ∈ l, e.2 ≠ []) :
    (l.map (fun e => e.2.length * e.1)).sum =
      ((stripBit false l).map (fun e => e.2.length * e.1)).sum +
      ((stripBit false l).map Prod.fst).sum +
      ((stripBit true l).map (fun e => e.2.length * e.1)).sum +
      ((stripBit true l).map Prod.fst).sum := by
  induction l with
  | nil => simp [stripBit]
  | cons e rest ih =>
    have hrest := ih (fun e' he' => hne e' (by simp [he']))
    cases hc : e.2 with
    | nil => exact absurd hc (hne e (by simp))
    | cons x xs =>
      have hlen : e.2.length = xs.length + 1 := by rw [hc]; simp
      have htail : e.2.tail = xs := by rw [hc]; rfl
      cases x with
      | false =>
        rw [stripBit, stripBit, if_pos (by simp [hc]), if_neg (by simp [hc])]
        simp only [List.map_cons, List.sum_cons, htail, hlen]
        have hmul : (xs.length + 1) * e.1 = xs.length * e.1 + e.1 := by ring
        omega
      | true =>
        rw [stripBit, stripBit, if_neg (by simp [hc]), if_pos (by simp [hc])]
        simp only [List.map_cons, List.sum_cons, htail, hlen]
        have hmul : (xs.length + 1) * e.1 = xs.length * e.1 + e.1 := by ring
        omega

theorem trieOf_single (e : Nat × List Bool) : trieOf [e] = .leaf e.1 := by
  rw [trieOf]

theorem trieOf_cons_cons (e1 e2 : Nat × List Bool) (rest : List (Nat × List Bool)) :
    trieOf (e1 :: e2 :: rest) =
      if stripBit false (e1 :: e2 :: rest) = [] then
        trieOf (stripBit true (e1 :: e2 :: rest))
      else if stripBit true (e1 :: e2 :: rest) = [] then
        trieOf (stripBit false (e1 :: e2 :: rest))
      else .node (trieOf (stripBit false (e1 :: e2 :: rest)))
                 (trieOf (stripBit true (e1 :: e2 :: rest))) := by
  rw [trieOf]
  split_ifs with h0 h1 <;> rfl

/-- Fuel-indexed trie construction: a non-empty prefix-free weighted code
list is realised by `trieOf` as a tree whose leaf multiset is exactly the
listed weights and whose weighted path length is at most the weighted code
length. -/
theorem trieOf_spec_aux (n : Nat) : ∀ l : List (Nat × List Bool), trieMeasure l ≤ n →
    PairwiseNoPre l → l ≠ [] →
    (trieOf l).leavesW = (l.map Prod.fst : Multiset Nat) ∧
    (trieOf l).cost ≤ (l.map (fun e => e.2.length * e.1)).sum := by
  induction n with
  | zero =>
    intro l hm _ hne
    exfalso
    cases l with
    | nil => exact hne rfl
    | cons e rest =>
      simp only [trieMeasure, List.length_cons] at hm
      omega
  | succ n ih =>
    intro l hm hnp hne
    cases l with
    | nil => exact absurd rfl hne
    | cons e1 rest1 =>
      cases rest1 with
      | nil =>
        rw [trieOf_single]
        exact ⟨by simp [WTree.leavesW], by simp [WTree.cost]⟩
      | cons e2 rest =>
        have hne2 : ∀ e ∈ e1 :: e2 :: rest, e.2 ≠ [] :=
          noPre_no_empty hnp (by simp)
        have hmlt : (List.map (fun e => e.2.length) (e1 :: e2 :: rest)).sum ≤ n := by
          simp only [trieMeasure, List.length_cons] at hm
          omega
        have hnp0 := stripBit_noPre (b := false) hnp
        have hnp1 := stripBit_noPre (b := true) hnp
        have hcosts := stripBit_costs hne2
        rw [trieOf_cons_cons]
        by_cases h0 : stripBit false (e1 :: e2 :: rest) = []
        · rw [if_pos h0]
          have hheads : ∀ e ∈ e1 :: e2 :: rest, e.2.head? = some true := by
            have := stripBit_empty_heads hne2 h0
            simpa using this
          have hall := stripBit_all (b := true) hheads
          have hne1' : stripBit true (e1 :: e2 :: rest) ≠ [] := by
            intro hc
            rw [hc] at hall
            simp at hall
          have hih := ih _ (le_trans (stripBit_measure true _) hmlt) hnp1 hne1'
          refine ⟨by rw [hih.1, hall.1], ?_⟩
          refine le_trans hih.2 ?_
          rw [hcosts, h0]
          simp only [List.map_nil, List.sum_nil]
          omega
        · rw [if_neg h0]
          by_cases h1 : stripBit true (e1 :: e2 :: rest) = []
          · rw [if_pos h1]
            have hih := ih _ (le_trans (stripBit_measure false _) hmlt) hnp0 h0
            have hweights := stripBit_weights hne2
            rw [h1] at hweights
            refine ⟨?_, ?_⟩
            · rw [hih.1]
              simpa using hweights.symm
            · refine le_trans hih.2 ?_
              rw [hcosts, h1]
              simp only [List.map_nil, List.sum_nil]
              omega
          · rw [if_neg h1]
            have hih0 := ih _ (le_trans (stripBit_measure false _) hmlt) hnp0 h0
            have hih1 := ih _ (le_trans (stripBit_measure true _) hmlt) hnp1 h1
            have hweights := stripBit_weights hne2
            refine ⟨?_, ?_⟩
            · show (trieOf _).leavesW + (trieOf _).leavesW = _
              rw [hih0.1, hih1.1, hweights]
            · show (trieOf _).cost + (trieOf _).cost + (trieOf _).wsum + (trieOf _).wsum ≤ _
              have hw0 : (trieOf (stripBit false (e1 :: e2 :: rest))).wsum
                  = ((stripBit false (e1 :: e2 :: rest)).map Prod.fst).sum := by
                rw [WTree.wsum_eq_sum, hih0.1, Multiset.sum_coe]
              have hw1 : (trieOf (stripBit true (e1 :: e2 :: rest))).wsum
                  = ((stripBit true (e1 :: e2 :: rest)).map Prod.fst).sum := by
                rw [WTree.wsum_eq_sum, hih1.1, Multiset.sum_coe]
              have h2 := hih0.2
              have h3 := hih1.2
              rw [hcosts]
              omega

/-- Trie construction for a non-empty prefix-free weighted code list. -/
theorem trieOf_spec {l : List (Nat × List Bool)} (hnp : PairwiseNoPre l) (hne : l ≠ []) :
    (trieOf l).leavesW = (l.map Prod.fst : Multiset Nat) ∧
    (trieOf l).cost ≤ (l.map (fun e => e.2.length * e.1)).sum :=
  trieOf_spec_aux (trieMeasure l) l le_rfl hnp hne

/-! ## The pipeline as greedy merging on weight trees -/

theorem WFN.nonneg {n : HuffmanNode} (h : WFN n) : 0 ≤ n.frequency := by
  induction h with
  | leaf c f hf => exact hf
  | node hl hr ihl ihr => exact add_nonneg ihl ihr

theorem WFN.wf {n : HuffmanNode} (h : WFN n) : WF n := by
  induction h with
  | leaf c f _ => exact WF.leaf c f
  | node hl hr ihl ihr => exact WF.node _ _ _ ihl ihr

theorem WFN.freq_toNat {n : HuffmanNode} (h : WFN n) :
    n.frequency.toNat = (toW n).wsum := by
  induction h with
  | leaf c f hf => rfl
  | node hl hr ihl ihr =>
    show (HuffmanNode.frequency _ + HuffmanNode.frequency _).toNat = _
    rw [Int.toNat_add hl.nonneg hr.nonneg, ihl, ihr]
    rfl

theorem sortedInsert_perm (p : Char × Int) (l : List (Char × Int)) :
    (sortedInsert p l).Perm (p :: l) := by
  induction l with
  | nil => exact List.Perm.refl _
  | cons q rest ih =>
    rw [sortedInsert]
    by_cases hle : q.2 ≤ p.2
    · rw [if_pos hle]
      exact (ih.cons q).trans (List.Perm.swap p q rest)
    · rw [if_neg hle]

theorem sortByFrequency_perm (l : List (Char × Int)) :
    (sortByFrequency l).Perm l := by
  induction l with
  | nil => exact List.Perm.refl _
  | cons p rest ih =>
    exact (sortedInsert_perm p (sortByFrequency rest)).trans (ih.cons p)

theorem heapFreqs_of_perm {heap heap' : List HuffmanNode} (h : heap.Perm heap') :
    heapFreqs heap = heapFreqs heap' :=
  Multiset.coe_eq_coe.mpr (h.map _)

theorem heapFreqs_cons (n : HuffmanNode) (heap : List HuffmanNode) :
    heapFreqs (n :: heap) = (toW n).wsum ::ₘ heapFreqs heap := rfl

theorem heapCost_of_perm {heap heap' : List HuffmanNode} (h : heap.Perm heap') :
    heapCost heap = heapCost heap' :=
  (h.map _).sum_eq

theorem heapCost_cons (n : HuffmanNode) (heap : List HuffmanNode) :
    heapCost (n :: heap) = (toW n).cost + heapCost heap := by
  simp [heapCost]

theorem heapEntries_of_perm {heap heap' : List HuffmanNode} (h : heap.Perm heap') :
    heapEntries heap = heapEntries heap' :=
  (h.map _).sum_eq

theorem heapEntries_cons (n : HuffmanNode) (heap : List HuffmanNode) :
    heapEntries (n :: heap) =
      ((leafEntries n : List (Char × Int)) : Multiset (Char × Int)) + heapEntries heap := by
  simp [heapEntries]

/-- On a well-formed tree the recorded path list is the symbol/path part of
the leaf data. -/
theorem pathsOf_eq_leafData {n : HuffmanNode} (h : WF n) :
    ∀ code, pathsOf n code = (leafData n code).map (fun e => (e.1, e.2.2)) := by
  induction h with
  | leaf c f => intro code; rfl
  | node l r f hl hr ihl ihr =>
    intro code
    show pathsOf l _ ++ pathsOf r _ = _
    rw [ihl, ihr]
    show _ = (leafData l _ ++ leafData r _).map _
    rw [List.map_append]

/-- On a well-formed tree the leaf entries are the symbol/frequency part of
the leaf data, whatever the accumulated path. -/
theorem leafEntries_eq_leafData {n : HuffmanNode} (h : WF n) :
    ∀ code, leafEntries n = (leafData n code).map (fun e => (e.1, e.2.1)) := by
  induction h with
  | leaf c f => intro code; rfl
  | node l r f hl hr ihl ihr =>
    intro code
    show leafEntries l ++ leafEntries r = _
    rw [ihl (code ++ [false]), ihr (code ++ [true])]
    show _ = (leafData l _ ++ leafData r _).map _
    rw [List.map_append]

/-- The leaf weights of the underlying weight tree are the leaf frequencies. -/
theorem leavesW_toW {n : HuffmanNode} (h : WFN n) :
    ∀ code, (toW n).leavesW =
      (((leafData n code).map (fun e => e.2.1.toNat) : List Nat) : Multiset Nat) := by
  induction h with
  | leaf c f hf => intro code; rfl
  | node hl hr ihl ihr =>
    rename_i l r
    intro code
    show (toW l).leavesW + (toW r).leavesW =
      ((((leafData l (code ++ [false]) ++ leafData r (code ++ [true])).map
        (fun e => e.2.1.toNat)) : List Nat) : Multiset Nat)
    rw [List.map_append, ihl (code ++ [false]), ihr (code ++ [true])]
    exact Multiset.coe_add _ _

/-- Depth/weight sum over the leaf data: starting the traversal at `code`,
the weighted sum of recorded path lengths is the weight-tree cost plus
`code.length` times the total weight. -/
theorem cost_toW {n : HuffmanNode} (h : WFN n) :
    ∀ code : List Bool,
      ((leafData n code).map (fun e => e.2.2.length * e.2.1.toNat)).sum =
        (toW n).cost + code.length * (toW n).wsum := by
  induction h with
  | leaf c f hf =>
    intro code
    show code.length * f.toNat + 0 = 0 + code.length * f.toNat
    omega
  | node hl hr ihl ihr =>
    rename_i l r
    intro code
    show ((leafData l (code ++ [false]) ++ leafData r (code ++ [true])).map
        (fun e => e.2.2.length * e.2.1.toNat)).sum =
      ((toW l).cost + (toW r).cost + (toW l).wsum + (toW r).wsum) +
        code.length * ((toW l).wsum + (toW r).wsum)
    rw [List.map_append, List.sum_append, ihl (code ++ [false]), ihr (code ++ [true])]
    simp only [List.length_append, List.length_cons, List.length_nil, Nat.zero_add]
    have h1 : (code.length + 1) * (toW l).wsum
        = code.length * (toW l).wsum + (toW l).wsum := by ring
    have h2 : (code.length + 1) * (toW r).wsum
        = code.length * (toW r).wsum + (toW r).wsum := by ring
    have h3 : code.length * ((toW l).wsum + (toW r).wsum)
        = code.length * (toW l).wsum + code.length * (toW r).wsum := by ring
    omega

/-- A one-element heap: nothing to merge, zero accumulated cost. -/
theorem heap_singleton_sim (root : HuffmanNode) :
    heapEntries [root] = ((leafEntries root : List (Char × Int)) : Multiset (Char × Int)) ∧
    ∃ k, HuffSteps (heapFreqs [root]) k ∧ k + heapCost [root] = (toW root).cost := by
  refine ⟨by simp [heapEntries], 0, ?_, by simp [heapCost]⟩
  have h : heapFreqs [root] = {(toW root).wsum} := rfl
  rw [h]
  exact HuffSteps.single _

/-- The merge loop, run down to a single tree, performs exactly a sequence of
greedy Huffman steps: the final tree is frequency-consistent, holds exactly
the heap's leaf entries, and its weight-tree cost exceeds the heap's summed
cost by an amount realisable as a greedy merge cost on the heap's weights. -/
theorem mergeLoopAux_sim : ∀ (fuel : Nat) (heap : List HuffmanNode),
    (∀ n ∈ heap, WFN n) →
    (heap.map (fun n => (toW n).wsum)).sum ≤ 2 ^ 31 - 1 → heap.length ≤ fuel + 1 →
    ∀ root, mergeLoopAux fuel heap = [root] →
    WFN root ∧
    heapEntries heap = ((leafEntries root : List (Char × Int)) : Multiset (Char × Int)) ∧
    ∃ k, HuffSteps (heapFreqs heap) k ∧ k + heapCost heap = (toW root).cost := by
  intro fuel
  induction fuel with
  | zero =>
    intro heap hwfn _ _ root heq
    have hh : heap = [root] := heq
    subst hh
    exact ⟨hwfn root (by simp), (heap_singleton_sim root).1, (heap_singleton_sim root).2⟩
  | succ fuel ih =>
    intro heap hwfn hbound hlen root heq
    rw [mergeLoopAux] at heq
    by_cases hgt : 1 < heap.length
    · rw [if_pos hgt] at heq
      have hne : heap ≠ [] := by intro h; rw [h] at hgt; simp at hgt
      obtain ⟨l, h1, hp1⟩ := popMin_isSome hne
      have hperm1 := popMin_perm hp1
      have hne1 : h1 ≠ [] := by
        intro h
        subst h
        have := hperm1.length_eq
        simp at this
        omega
      obtain ⟨r, h2, hp2⟩ := popMin_isSome hne1
      have hperm2 := popMin_perm hp2
      have hms : mergeStep heap = combine l r :: h2 := by
        simp only [mergeStep, hp1, hp2]
      have hmem1 : ∀ n ∈ h1, n ∈ heap := fun n hn =>
        hperm1.mem_iff.mpr (List.mem_cons_of_mem l hn)
      have hmem2 : ∀ n ∈ h2, n ∈ h1 := fun n hn =>
        hperm2.mem_iff.mpr (List.mem_cons_of_mem r hn)
      have hwl : WFN l := hwfn l (hperm1.mem_iff.mpr (List.mem_cons_self l h1))
      have hwr : WFN r := hwfn r (hmem1 r (hperm2.mem_iff.mpr (List.mem_cons_self r h2)))
      have hs1 : (heap.map (fun n => (toW n).wsum)).sum
          = (toW l).wsum + (h1.map (fun n => (toW n).wsum)).sum := by
        rw [(hperm1.map (fun n => (toW n).wsum)).sum_eq]
        simp
      have hs2 : (h1.map (fun n => (toW n).wsum)).sum
          = (toW r).wsum + (h2.map (fun n => (toW n).wsum)).sum := by
        rw [(hperm2.map (fun n => (toW n).wsum)).sum_eq]
        simp
      have hwsc : (toW (combine l r)).wsum = (toW l).wsum + (toW r).wsum := rfl
      have hbound2 : ((mergeStep heap).map (fun n => (toW n).wsum)).sum ≤ 2 ^ 31 - 1 := by
        rw [hms]
        simp only [List.map_cons, List.sum_cons]
        rw [hwsc]
        omega
      have hpair : (toW l).wsum + (toW r).wsum ≤ 2 ^ 31 - 1 := by omega
      have hfl : l.frequency = (((toW l).wsum : Nat) : Int) := by
        rw [← WFN.freq_toNat hwl, Int.toNat_of_nonneg hwl.nonneg]
      have hfr : r.frequency = (((toW r).wsum : Nat) : Int) := by
        rw [← WFN.freq_toNat hwr, Int.toNat_of_nonneg hwr.nonneg]
      have hwrap : wrapI32 (l.frequency + r.frequency) = l.frequency + r.frequency := by
        apply wrapI32_eq_self
        · rw [hfl, hfr]
          omega
        · rw [hfl, hfr]
          omega
      have hcomb : WFN (combine l r) := by
        have hcc : combine l r = .mkSS l r none (l.frequency + r.frequency) := by
          show HuffmanNode.mkSS l r none (wrapI32 (l.frequency + r.frequency)) = _
          rw [hwrap]
        rw [hcc]
        exact WFN.node hwl hwr
      have hwfn2 : ∀ n ∈ mergeStep heap, WFN n := by
        rw [hms]
        intro n hn
        rcases List.mem_cons.mp hn with rfl | hn2
        · exact hcomb
        · exact hwfn n (hmem1 n (hmem2 n hn2))
      have hlen2 : (mergeStep heap).length ≤ fuel + 1 := by
        rw [hms]
        have e1 := hperm1.length_eq
        have e2 := hperm2.length_eq
        simp only [List.length_cons] at e1 e2 ⊢
        omega
      obtain ⟨hwroot, hent, k, hsteps, hcost⟩ := ih (mergeStep heap) hwfn2 hbound2 hlen2 root heq
      have hf1 : heapFreqs heap = (toW l).wsum ::ₘ heapFreqs h1 := by
        rw [heapFreqs_of_perm hperm1, heapFreqs_cons]
      have hf2 : heapFreqs h1 = (toW r).wsum ::ₘ heapFreqs h2 := by
        rw [heapFreqs_of_perm hperm2, heapFreqs_cons]
      have hws : (toW (combine l r)).wsum = (toW l).wsum + (toW r).wsum := rfl
      have hfm : heapFreqs (mergeStep heap)
          = ((toW l).wsum + (toW r).wsum) ::ₘ heapFreqs h2 := by
        rw [hms, heapFreqs_cons, hws]
      have hcostc : (toW (combine l r)).cost
          = (toW l).cost + (toW r).cost + (toW l).wsum + (toW r).wsum := rfl
      have hc1 : heapCost heap = (toW l).cost + heapCost h1 := by
        rw [heapCost_of_perm hperm1, heapCost_cons]
      have hc2 : heapCost h1 = (toW r).cost + heapCost h2 := by
        rw [heapCost_of_perm hperm2, heapCost_cons]
      have hcm : heapCost (mergeStep heap)
          = (toW l).cost + (toW r).cost + (toW l).wsum + (toW r).wsum + heapCost h2 := by
        rw [hms, heapCost_cons, hcostc]
      have hle : leafEntries (combine l r) = leafEntries l ++ leafEntries r := rfl
      have he1 : heapEntries heap =
          ((leafEntries l : List (Char × Int)) : Multiset (Char × Int)) + heapEntries h1 := by
        rw [heapEntries_of_perm hperm1, heapEntries_cons]
      have he2 : heapEntries h1 =
          ((leafEntries r : List (Char × Int)) : Multiset (Char × Int)) + heapEntries h2 := by
        rw [heapEntries_of_perm hperm2, heapEntries_cons]
      have hem : heapEntries (mergeStep heap)
          = ((leafEntries l : List (Char × Int)) : Multiset (Char × Int)) +
            ((leafEntries r : List (Char × Int)) : Multiset (Char × Int)) + heapEntries h2 := by
        rw [hms, heapEntries_cons, hle, ← Multiset.coe_add]
      have hmin1 : ∀ v ∈ heapFreqs heap, (toW l).wsum ≤ v := by
        intro v hv
        simp only [heapFreqs, Multiset.mem_coe, List.mem_map] at hv
        obtain ⟨n, hn, rfl⟩ := hv
        rw [← WFN.freq_toNat hwl, ← WFN.freq_toNat (hwfn n hn)]
        exact Int.toNat_le_toNat (popMin_min hp1 n hn)
      have hmin2 : ∀ v ∈ (heapFreqs heap).erase ((toW l).wsum), (toW r).wsum ≤ v := by
        intro v hv
        rw [hf1, Multiset.erase_cons_head] at hv
        simp only [heapFreqs, Multiset.mem_coe, List.mem_map] at hv
        obtain ⟨n, hn, rfl⟩ := hv
        rw [← WFN.freq_toNat hwr, ← WFN.freq_toNat (hwfn n (hmem1 n hn))]
        exact Int.toNat_le_toNat (popMin_min hp2 n hn)
      have hma : (toW l).wsum ∈ heapFreqs heap := by
        rw [hf1]
        exact Multiset.mem_cons_self _ _
      have hmb : (toW r).wsum ∈ (heapFreqs heap).erase ((toW l).wsum) := by
        rw [hf1, Multiset.erase_cons_head, hf2]
        exact Multiset.mem_cons_self _ _
      have herase : ((toW l).wsum + (toW r).wsum) ::ₘ
          (((heapFreqs heap).erase ((toW l).wsum)).erase ((toW r).wsum))
          = heapFreqs (mergeStep heap) := by
        rw [hf1, Multiset.erase_cons_head, hf2, Multiset.erase_cons_head, hfm]
      refine ⟨hwroot, ?_, k + (toW l).wsum + (toW r).wsum, ?_, ?_⟩
      · rw [he1, he2, ← hent, hem]
        exact (add_assoc _ _ _).symm
      · refine HuffSteps.step (heapFreqs heap) _ _ k hma hmb hmin1 hmin2 ?_
        rw [herase]
        exact hsteps
      · rw [hc1, hc2]
        rw [hcm] at hcost
        omega
    · rw [if_neg hgt] at heq
      subst heq
      exact ⟨hwfn root (by simp), (heap_singleton_sim root).1, (heap_singleton_sim root).2⟩

/-- With duplicate-free keys, table membership determines `HashMap::get` on
the code table. -/
theorem getCode_of_mem_nodup {tbl : Table} {c : Char} {code : List Bool}
    (hnd : (tbl.map Prod.fst).Nodup) (hmem : (c, code) ∈ tbl) :
    Table.getCode tbl c = some code := by
  induction tbl with
  | nil => simp at hmem
  | cons p rest ih =>
    obtain ⟨k, v⟩ := p
    rw [List.map_cons, List.nodup_cons] at hnd
    rcases List.mem_cons.mp hmem with heq | hmem'
    · injection heq with h1 h2
      subst h1
      subst h2
      simp [Table.getCode, List.find?]
    · have hk : k ≠ c := by
        intro h
        subst h
        exact hnd.1 (List.mem_map.mpr ⟨(k, code), hmem', rfl⟩)
      have := ih hnd.2 hmem'
      simpa [Table.getCode, List.find?, hk] using this

theorem sum_map_singleton_list {α : Type} (l : List α) :
    ((l.map (fun a => ({a} : Multiset α))).sum : Multiset α) = (l : Multiset α) := by
  induction l with
  | nil => rfl
  | cons a rest ih =>
    rw [List.map_cons, List.sum_cons, ih, Multiset.singleton_add, Multiset.cons_coe]

/-- The initial heap's weights are the mapping's frequencies. -/
theorem initial_heap_freqs (fm : List (Char × Int)) :
    heapFreqs ((sortByFrequency fm).map (fun p => HuffmanNode.mk none none (some p.1) p.2))
      = ((fm.map (fun p => p.2.toNat) : List Nat) : Multiset Nat) := by
  have hmm : (((sortByFrequency fm).map
        (fun p => HuffmanNode.mk none none (some p.1) p.2)).map (fun n => (toW n).wsum))
      = (sortByFrequency fm).map (fun p => p.2.toNat) := by
    rw [List.map_map]
    rfl
  rw [heapFreqs, hmm]
  exact Multiset.coe_eq_coe.mpr ((sortByFrequency_perm fm).map _)

/-- The initial heap's leaf entries are the mapping's entries. -/
theorem initial_heap_entries (fm : List (Char × Int)) :
    heapEntries ((sortByFrequency fm).map (fun p => HuffmanNode.mk none none (some p.1) p.2))
      = (fm : Multiset (Char × Int)) := by
  have hmm : (((sortByFrequency fm).map
        (fun p => HuffmanNode.mk none none (some p.1) p.2)).map
        (fun n => ((leafEntries n : List (Char × Int)) : Multiset (Char × Int))))
      = (sortByFrequency fm).map (fun p => ({p} : Multiset (Char × Int))) := by
    rw [List.map_map]
    rfl
  rw [heapEntries, hmm, sum_map_singleton_list]
  exact Multiset.coe_eq_coe.mpr (sortByFrequency_perm fm)

/-- The initial heap is all leaves: zero accumulated cost. -/
theorem initial_heap_cost (fm : List (Char × Int)) :
    heapCost ((sortByFrequency fm).map (fun p => HuffmanNode.mk none none (some p.1) p.2))
      = 0 := by
  rw [heapCost]
  apply List.sum_eq_zero
  intro x hx
  obtain ⟨n, hn, rfl⟩ := List.mem_map.mp hx
  obtain ⟨p, hp, rfl⟩ := List.mem_map.mp hn
  rfl

/-- The initial heap's summed weight is the mapping's total count. -/
theorem initial_heap_wsum (fm : List (Char × Int)) :
    (((sortByFrequency fm).map (fun p => HuffmanNode.mk none none (some p.1) p.2)).map
        (fun n => (toW n).wsum)).sum
      = (fm.map (fun p => p.2.toNat)).sum := by
  have hmm : (((sortByFrequency fm).map
        (fun p => HuffmanNode.mk none none (some p.1) p.2)).map (fun n => (toW n).wsum))
      = (sortByFrequency fm).map (fun p => p.2.toNat) := by
    rw [List.map_map]
    rfl
  rw [hmm]
  exact ((sortByFrequency_perm fm).map _).sum_eq

/-- Under non-negative frequencies the initial heap is frequency-consistent. -/
theorem initial_heap_wfn (fm : List (Char × Int)) (hpos : ∀ p ∈ fm, 0 ≤ p.2) :
    ∀ n ∈ (sortByFrequency fm).map (fun p => HuffmanNode.mk none none (some p.1) p.2),
      WFN n := by
  intro n hn
  obtain ⟨p, hp, rfl⟩ := List.mem_map.mp hn
  exact WFN.leaf p.1 p.2 (hpos p ((sortByFrequency_perm fm).mem_iff.mp hp))

/-- Strengthened elimination of a successful build under non-negative
frequencies: the root is frequency-consistent, its leaf entries are exactly
the mapping's entries, and its weight-tree cost is a greedy merge cost for
the mapping's frequency multiset. -/
theorem build_ok_strong {fm : List (Char × Int)} {tree : HuffmanTree}
    (hpos : ∀ p ∈ fm, 0 ≤ p.2)
    (hbound : (fm.map (fun p => p.2.toNat)).sum ≤ 2 ^ 31 - 1)
    (h : build_huffman_from_frequencies fm = .ok tree) :
    WFN tree.root ∧
    ((leafEntries tree.root : List (Char × Int)) : Multiset (Char × Int))
      = (fm : Multiset (Char × Int)) ∧
    HuffSteps ((fm.map (fun p => p.2.toNat) : List Nat) : Multiset Nat)
      (toW tree.root).cost := by
  have hfm : fm ≠ [] := by
    intro hnil
    subst hnil
    rw [show build_huffman_from_frequencies [] =
      .panicked ("Something strange going on :/") from rfl] at h
    simp at h
  rw [build_huffman_from_frequencies] at h
  set heap := (sortByFrequency fm).map (fun p => HuffmanNode.mk none none (some p.1) p.2)
    with hheap
  have hlenh : heap.length = fm.length := by
    simp [hheap, sortByFrequency_length]
  have hge : 1 ≤ heap.length := by
    rw [hlenh]
    exact List.length_pos.mpr hfm
  have hone := mergeLoop_length hge
  cases hp : popMin (mergeLoop heap) with
  | none => rw [hp] at h; exact absurd h (by simp)
  | some pr =>
    obtain ⟨root, rest⟩ := pr
    rw [hp] at h
    have hperm := popMin_perm hp
    have hrest : rest = [] := by
      have hlen1 := hperm.length_eq
      rw [hone] at hlen1
      simp at hlen1
      exact hlen1
    subst hrest
    have hml : mergeLoop heap = [root] := List.perm_singleton.mp hperm
    have hwfn0 : ∀ n ∈ heap, WFN n := by
      rw [hheap]
      exact initial_heap_wfn fm hpos
    have hbound0 : (heap.map (fun n => (toW n).wsum)).sum ≤ 2 ^ 31 - 1 := by
      rw [hheap, initial_heap_wsum]
      exact hbound
    obtain ⟨hwroot, hent, k, hsteps, hcost⟩ :=
      mergeLoopAux_sim heap.length heap hwfn0 hbound0 (Nat.le_succ _) root hml
    have h' : (match build_table root [] [] with
        | RustOutcome.ok table => RustOutcome.ok { table := table, root := root }
        | RustOutcome.panicked msg =>
          (RustOutcome.panicked msg : RustOutcome HuffmanTree)) = RustOutcome.ok tree := h
    rw [build_table_ok hwroot.wf [] []] at h'
    simp only [RustOutcome.ok.injEq] at h'
    subst h'
    refine ⟨hwroot, ?_, ?_⟩
    · rw [← hent, hheap]
      exact initial_heap_entries fm
    · have hc0 : heapCost heap = 0 := by
        rw [hheap]
        exact initial_heap_cost fm
      have hf0 : heapFreqs heap
          = ((fm.map (fun p => p.2.toNat) : List Nat) : Multiset Nat) := by
        rw [hheap]
        exact initial_heap_freqs fm
      rw [← hf0]
      have hk : k = (toW root).cost := by omega
      rw [← hk]
      exact hsteps

/-- Casting a weighted length sum between `Nat` and `Int` under non-negative
frequencies. -/
theorem weightedSum_intCast (fm : List (Char × Int)) (g : Char → Nat)
    (hpos : ∀ p ∈ fm, 0 ≤ p.2) :
    (fm.map (fun p => ((g p.1 : Int)) * p.2)).sum
      = ((fm.map (fun p => g p.1 * p.2.toNat)).sum : Int) := by
  induction fm with
  | nil => rfl
  | cons p rest ih =>
    rw [List.map_cons, List.sum_cons, List.map_cons, List.sum_cons]
    rw [ih (fun q hq => hpos q (by simp [hq]))]
    have hp := hpos p (by simp)
    have hcast : (g p.1 : Int) * p.2 = ((g p.1 * p.2.toNat : Nat) : Int) := by
      rw [Nat.cast_mul, Int.toNat_of_nonneg hp]
    rw [hcast]
    exact (Nat.cast_add _ _).symm

/-! ## The claims -/

/-- C1: the round-trip law `decode(encode(S)) = S` fails on the code for the
single-symbol input `S = ['a']`: the sole symbol receives the empty code, so
`encode` produces no bits and `decode` returns the empty sequence. -/
theorem c1_roundtrip_fails_on_single_symbol_input :
    roundTrip ['a'] = some [] ∧ some [] ≠ some ['a'] :=
  ⟨rfl, by decide⟩

/-- C2: on the one-entry frequency mapping `a ↦ 1` the code table assigns
`'a'` the empty bit sequence (length 0), not a code of length 1 — the
root-is-leaf special case the spec requires is absent from `build_table`. -/
theorem c2_single_symbol_code_is_empty_not_one_bit :
    (codeInBuiltTable [('a', 1)] 'a').map List.length = some 0 ∧ (0 : Nat) ≠ 1 :=
  ⟨rfl, by decide⟩

/-- C3 (counterexample): encoding `['z']` with the coder built from "abb"
does not return a recoverable error value — it takes the `panic!` branch
(a process abort) carrying the unknown-symbol message. -/
theorem c3_counterexample_encode_unknown_symbol_panics :
    encodeViaBuilt ['a', 'b', 'b'] ['z'] =
      some (.panicked ("z was not found in huffman tree :: Failed to encode")) := rfl

/-- C3 (amended): `encode` is all-or-nothing.  If every input symbol is in
the table it returns the concatenation of their codes; if any symbol is
missing it panics (aborting the whole call), so no partial output is ever
returned. -/
theorem c3_encode_all_or_nothing (t : HuffmanTree) (input : List Char) :
    ((∀ c ∈ input, (t.get_code c).isSome = true) →
      t.encode input = .ok (input.flatMap (fun c => (t.get_code c).getD []))) ∧
    ((∃ c ∈ input, t.get_code c = none) → ∃ msg, t.encode input = .panicked msg) := by
  constructor
  · intro h
    rw [encode_def, encodeGo_all_known t input [] h]
    simp
  · intro h
    exact encodeGo_unknown t input h []

theorem c3_witness : pairTree.encode ['a', 'b'] = .ok [false, true] := by
  have h := (c3_encode_all_or_nothing pairTree ['a', 'b']).1 (by decide)
  exact h.trans (by decide)

/-- C4 (counterexample): with the coder built from "abbcccc", `[false]` is a
strict, non-root-aligned prefix of the valid encoding `[false, false]` of
`['a']`, yet `decode` returns the ordinary value `[]` — the trailing partial
code is silently dropped and no `TruncatedCode` error exists anywhere in the
code (`decode`'s result type cannot even express one). -/
theorem c4_counterexample_truncated_decode_returns_normally :
    encodeViaBuilt ['a', 'b', 'b', 'c', 'c', 'c', 'c'] ['a'] = some (.ok [false, false]) ∧
    decodeViaBuilt ['a', 'b', 'b', 'c', 'c', 'c', 'c'] [false] = some [] :=
  ⟨rfl, rfl⟩

/-- C4 (amended): `decode` cannot fail; when the bit stream ends mid-path —
the trailing bits `extra` complete no further symbol from the cursor reached
after `bits` — those bits are silently dropped and the result is exactly the
decoding of `bits`. -/
theorem c4_decode_drops_trailing_partial_code (t : HuffmanTree) (bits extra : List Bool)
    (h : (t.decodeLoop (t.decodeLoop t.root bits).2 extra).1 = []) :
    t.decode (bits ++ extra) = t.decode bits := by
  rw [decode_def, decodeLoop_append t bits t.root extra]
  simp [decode_def, h]

theorem c4_witness : tripleTree.decode ([true] ++ [false]) = tripleTree.decode [true] :=
  c4_decode_drops_trailing_partial_code tripleTree [true] [false] (by decide)

/-- C5 (counterexample): building a coder from the empty symbol sequence does
not return a recoverable `EmptyInput` error value — it takes the `panic!`
branch (a process abort). -/
theorem c5_counterexample_empty_input_panics :
    (HuffmanTree.new []).isOk = false ∧
    (HuffmanTree.new []).panicMsg = some ("Something strange going on :/") :=
  ⟨rfl, rfl⟩

/-- C5 (amended): building from the empty sequence panics rather than
returning an error value; for every non-empty input the whole build pipeline
(frequency analysis, then tree and table construction) returns normally. -/
theorem c5_build_panics_on_empty_succeeds_on_nonempty :
    (HuffmanTree.new []).isOk = false ∧
    ∀ chars : List Char, chars ≠ [] → (HuffmanTree.new chars).isOk = true := by
  refine ⟨rfl, ?_⟩
  intro chars h
  obtain ⟨tree, htree⟩ := build_succeeds (get_frequencies_ne_nil h)
  rw [new_def, htree]
  rfl

theorem c5_witness : (HuffmanTree.new ['a']).isOk = true :=
  c5_build_panics_on_empty_succeeds_on_nonempty.2 ['a'] (by decide)

/-- C6: the code table of every successfully built coder is prefix-free —
for distinct symbols `s ≠ t` with table codes `cs` and `ct`, `cs` is not a
prefix of `ct`.  (The build succeeds exactly on non-empty mappings, so this
covers every coder built from a non-empty frequency mapping.) -/
theorem c6_prefix_free_codes (fm : List (Char × Int)) (tree : HuffmanTree)
    (hbuild : build_huffman_from_frequencies fm = .ok tree)
    (s t : Char) (cs ct : List Bool) (hst : s ≠ t)
    (hs : tree.get_code s = some cs) (ht : tree.get_code t = some ct) :
    ¬ cs <+: ct := by
  obtain ⟨hwf, htbl⟩ := build_ok_elim hbuild
  have hsmem : (s, cs) ∈ pathsOf tree.root [] := by
    have := getCode_mem (show Table.getCode tree.table s = some cs from hs)
    rwa [htbl, List.mem_reverse] at this
  have htmem : (t, ct) ∈ pathsOf tree.root [] := by
    have := getCode_mem (show Table.getCode tree.table t = some ct from ht)
    rwa [htbl, List.mem_reverse] at this
  exact pathsOf_pairwise_unrelated hwf [] s cs t ct hsmem htmem hst

theorem c6_witness : ¬ [true] <+: [false] :=
  c6_prefix_free_codes [('a', 1), ('b', 2)] pairTree rfl 'b' 'a' [true] [false]
    (by decide) rfl rfl

/-- C7 (counterexample): `i32` overflow breaks optimality.  On the in-scope
mapping `fmFive` (five symbols of frequency `2 ^ 30`, duplicate-free keys,
non-negative counts) the first merge's `i32` sum `2 ^ 31` wraps to
`-2 ^ 31`; the wrapped node then wins every pop and the pipeline builds a
degenerate chain whose code table has weighted length `14 * 2 ^ 30`, while
the prefix-free rival with code lengths 2,2,2,3,3 achieves `12 * 2 ^ 30`, so
the unconditional minimality claim fails on this mapping. -/
theorem c7_counterexample_overflow_breaks_optimality :
    ((fmFive.map Prod.fst).Nodup ∧ ∀ p ∈ fmFive, 0 ≤ p.2) ∧
    (fmFive.map Prod.fst).Pairwise
      (fun c1 c2 => ¬ rivalCode5 c1 <+: rivalCode5 c2 ∧ ¬ rivalCode5 c2 <+: rivalCode5 c1) ∧
    (fmFive.map (fun p => (((rivalCode5 p.1).length : Int)) * p.2)).sum <
      (fmFive.map
        (fun p => (((codeInBuiltTable fmFive p.1).getD []).length : Int) * p.2)).sum := by
  exact ⟨⟨by decide, by decide⟩, by decide, by decide⟩

/-- C7 (amended): optimality below the overflow bound.  For every frequency
mapping with duplicate-free keys, non-negative counts and total count at most
`2 ^ 31 - 1` (so no merge-loop `i32` addition overflows) from which the build
pipeline returns a coder, and for every assignment of bit codes to symbols
that is prefix-free on the mapping's symbols, the weighted sum of code length
times frequency under the pipeline's code table is at most the weighted sum
under the rival assignment. -/
theorem c7_built_table_minimises_weighted_length
    (fm : List (Char × Int)) (tree : HuffmanTree) (cf : Char → List Bool)
    (hnodup : (fm.map Prod.fst).Nodup)
    (hpos : ∀ p ∈ fm, 0 ≤ p.2)
    (hbound : (fm.map (fun p => p.2.toNat)).sum ≤ 2 ^ 31 - 1)
    (hbuild : build_huffman_from_frequencies fm = .ok tree)
    (hpf : (fm.map Prod.fst).Pairwise
      (fun c1 c2 => ¬ cf c1 <+: cf c2 ∧ ¬ cf c2 <+: cf c1)) :
    (fm.map (fun p => ((((tree.get_code p.1).getD []).length : Int)) * p.2)).sum ≤
    (fm.map (fun p => (((cf p.1).length : Int)) * p.2)).sum := by
  obtain ⟨hwroot, hent, hsteps⟩ := build_ok_strong hpos hbound hbuild
  obtain ⟨hwf, htbl⟩ := build_ok_elim hbuild
  have hperm : (leafEntries tree.root).Perm fm := Multiset.coe_eq_coe.mp hent
  have hfm : fm ≠ [] := by
    intro hnil
    subst hnil
    rw [show build_huffman_from_frequencies [] =
      .panicked ("Something strange going on :/") from rfl] at hbuild
    simp at hbuild
  have hkeys : (leafEntries tree.root).map Prod.fst
      = (leafData tree.root []).map (fun e => e.1) := by
    rw [leafEntries_eq_leafData hwf [], List.map_map]
    rfl
  have hpaths : (pathsOf tree.root []).map Prod.fst
      = (leafData tree.root []).map (fun e => e.1) := by
    rw [pathsOf_eq_leafData hwf [], List.map_map]
    rfl
  have hnodup2 : ((pathsOf tree.root []).map Prod.fst).Nodup := by
    rw [hpaths, ← hkeys]
    exact (hperm.map Prod.fst).nodup_iff.mpr hnodup
  have htblnodup : (tree.table.map Prod.fst).Nodup := by
    rw [htbl, List.map_reverse]
    exact List.nodup_reverse.mpr hnodup2
  have hget : ∀ e ∈ leafData tree.root [], tree.get_code e.1 = some e.2.2 := by
    intro e he
    have hmem : (e.1, e.2.2) ∈ pathsOf tree.root [] := by
      rw [pathsOf_eq_leafData hwf []]
      exact List.mem_map.mpr ⟨e, he, rfl⟩
    have hmem' : (e.1, e.2.2) ∈ tree.table := by
      rw [htbl]
      exact List.mem_reverse.mpr hmem
    exact getCode_of_mem_nodup htblnodup hmem'
  have htcost : (fm.map (fun p => ((tree.get_code p.1).getD []).length * p.2.toNat)).sum
      = (toW tree.root).cost := by
    have h1 : (fm.map (fun p => ((tree.get_code p.1).getD []).length * p.2.toNat)).sum
        = ((leafEntries tree.root).map
            (fun p => ((tree.get_code p.1).getD []).length * p.2.toNat)).sum :=
      ((hperm.map _).sum_eq).symm
    rw [h1, leafEntries_eq_leafData hwf [], List.map_map]
    have h2 : (leafData tree.root []).map
        ((fun p : Char × Int => ((tree.get_code p.1).getD []).length * p.2.toNat)
          ∘ (fun e : Char × Int × List Bool => (e.1, e.2.1)))
        = (leafData tree.root []).map (fun e => e.2.2.length * e.2.1.toNat) := by
      apply List.map_congr_left
      intro e he
      show ((tree.get_code e.1).getD []).length * e.2.1.toNat = _
      rw [hget e he]
      rfl
    rw [h2, cost_toW hwroot []]
    simp
  have hlwnp : PairwiseNoPre (fm.map (fun p => (p.2.toNat, cf p.1))) := by
    rw [PairwiseNoPre, List.pairwise_map]
    rw [List.pairwise_map] at hpf
    exact hpf
  have hlwne : fm.map (fun p => (p.2.toNat, cf p.1)) ≠ [] := by
    intro hc
    exact hfm (List.map_eq_nil_iff.mp hc)
  obtain ⟨hleaves, hcostle⟩ := trieOf_spec hlwnp hlwne
  have hllw : (trieOf (fm.map (fun p => (p.2.toNat, cf p.1)))).leavesW
      = ((fm.map (fun p => p.2.toNat) : List Nat) : Multiset Nat) := by
    rw [hleaves, List.map_map]
    rfl
  have hK : (toW tree.root).cost
      ≤ (trieOf (fm.map (fun p => (p.2.toNat, cf p.1)))).cost :=
    huffSteps_le_cost hsteps _ hllw
  have hcomp : ((fm.map (fun p => (p.2.toNat, cf p.1))).map
      (fun e => e.2.length * e.1)).sum
      = (fm.map (fun p => (cf p.1).length * p.2.toNat)).sum := by
    rw [List.map_map]
    rfl
  have hnat : (fm.map (fun p => ((tree.get_code p.1).getD []).length * p.2.toNat)).sum ≤
      (fm.map (fun p => (cf p.1).length * p.2.toNat)).sum := by
    rw [htcost, ← hcomp]
    exact le_trans hK hcostle
  calc (fm.map (fun p => ((((tree.get_code p.1).getD []).length : Int)) * p.2)).sum
      = ((fm.map (fun p => ((tree.get_code p.1).getD []).length * p.2.toNat)).sum : Int) :=
        weightedSum_intCast fm (fun c => ((tree.get_code c).getD []).length) hpos
    _ ≤ ((fm.map (fun p => (cf p.1).length * p.2.toNat)).sum : Int) := Nat.cast_le.mpr hnat
    _ = (fm.map (fun p => (((cf p.1).length : Int)) * p.2)).sum :=
        (weightedSum_intCast fm (fun c => (cf c).length) hpos).symm

theorem c7_witness :
    (([('a', 1), ('b', 2)] : List (Char × Int)).map Prod.fst).Nodup ∧
    (∀ p ∈ ([('a', 1), ('b', 2)] : List (Char × Int)), 0 ≤ p.2) ∧
    (([('a', 1), ('b', 2)] : List (Char × Int)).map (fun p => p.2.toNat)).sum ≤ 2 ^ 31 - 1 ∧
    build_huffman_from_frequencies [('a', 1), ('b', 2)] = .ok pairTree ∧
    (([('a', 1), ('b', 2)] : List (Char × Int)).map Prod.fst).Pairwise
      (fun c1 c2 =>
        ¬ (if c1 = 'a' then [false] else [true]) <+: (if c2 = 'a' then [false] else [true]) ∧
        ¬ (if c2 = 'a' then [false] else [true]) <+: (if c1 = 'a' then [false] else [true])) ∧
    (([('a', 1), ('b', 2)] : List (Char × Int)).map
        (fun p => ((((pairTree.get_code p.1).getD []).length : Int)) * p.2)).sum ≤
      (([('a', 1), ('b', 2)] : List (Char × Int)).map
        (fun p => ((((if p.1 = 'a' then [false] else [true]) : List Bool).length : Int)) * p.2)).sum :=
  ⟨by decide, by decide, by decide, rfl, by decide,
    c7_built_table_minimises_weighted_length [('a', 1), ('b', 2)] pairTree
      (fun c => if c = 'a' then [false] else [true]) (by decide) (by decide) (by decide) rfl
      (by decide)⟩

/-- C8 (counterexample): on the in-scope input consisting of `2 ^ 31`
occurrences of one symbol, the `i32` counter wraps: the produced mapping is
`[('a', -2 ^ 31)]` while the exact occurrence count is `2 ^ 31`, so the
unconditional exact-count claim fails on this sequence of length ≥ 1. -/
theorem c8_counterexample_count_wraps_at_two_pow_31 :
    get_frequencies (List.replicate (2 ^ 31) 'a') = [('a', -(2 ^ 31 : Int))] ∧
    (((List.replicate (2 ^ 31) 'a').count 'a' : Nat) : Int) = 2 ^ 31 ∧
    (-(2 ^ 31 : Int)) ≠ 2 ^ 31 := by
  refine ⟨?_, ?_, by decide⟩
  · rw [get_frequencies_replicate 'a' (2 ^ 31) (by norm_num)]
    norm_num [wrapI32]
  · rw [List.count_replicate_self]
    norm_num

/-- C8 (amended): for every input sequence of length at least 1 and below the
`i32` overflow bound `2 ^ 31` (so no counter increment wraps), the produced
mapping has exactly one entry per distinct symbol of the sequence, and each
entry's count equals the exact number of occurrences of that symbol. -/
theorem c8_get_frequencies_exact (chars : List Char) (h : 1 ≤ chars.length)
    (h31 : chars.length < 2 ^ 31) :
    ((get_frequencies chars).map Prod.fst).Nodup ∧
    (∀ c : Char, c ∈ (get_frequencies chars).map Prod.fst ↔ c ∈ chars) ∧
    (∀ (c : Char) (f : Int), (c, f) ∈ get_frequencies chars → f = (chars.count c : Int)) := by
  refine ⟨get_frequencies_keys_nodup_aux chars [] (by simp), ?_, ?_⟩
  · intro c
    rw [mem_keys_iff_lookup, get_frequencies_def, lookupFrequency_foldl chars [] c]
    by_cases hc : c ∈ chars <;> simp [lookupFrequency, hc]
  · intro c f hmem
    have hnd := get_frequencies_keys_nodup_aux chars [] (by simp)
    have hl := lookup_of_mem_nodup hnd hmem
    rw [lookupFrequency_foldl chars [] c] at hl
    have hcm : c ∈ chars := by
      by_contra hcm
      simp [lookupFrequency, hcm] at hl
    simp [lookupFrequency, hcm] at hl
    have hcnt : chars.count c < 2 ^ 31 :=
      lt_of_le_of_lt (List.count_le_length c chars) h31
    rw [← hl, wrapI32_eq_self (by omega) (by omega)]

theorem c8_witness : (2 : Int) = ((['a', 'b', 'a'] : List Char).count 'a' : Int) :=
  (c8_get_frequencies_exact ['a', 'b', 'a'] (by decide) (by decide)).2.2 'a' 2 (by decide)

/-- C9: from any frequency mapping with at least two entries the pipeline
returns a tree whose every node is either a leaf or an internal node with
both children present (`WF`), and rederiving the table from its root takes no
`panic!` arm of `build_table` (it returns `ok`). -/
theorem c9_merge_built_internal_nodes_are_binary (fm : List (Char × Int))
    (h2 : 2 ≤ fm.length) :
    ∃ tree, build_huffman_from_frequencies fm = .ok tree ∧ WF tree.root ∧
      ∃ tbl, build_table tree.root [] [] = .ok tbl := by
  have hne : fm ≠ [] := by
    intro he
    rw [he] at h2
    simp at h2
  obtain ⟨tree, htree⟩ := build_succeeds hne
  obtain ⟨hwf, _⟩ := build_ok_elim htree
  exact ⟨tree, htree, hwf, _, build_table_ok hwf [] []⟩

theorem c9_witness :
    ∃ tree, build_huffman_from_frequencies [('a', 1), ('b', 2)] = .ok tree ∧ WF tree.root ∧
      ∃ tbl, build_table tree.root [] [] = .ok tbl :=
  c9_merge_built_internal_nodes_are_binary [('a', 1), ('b', 2)] (by decide)

/-- C10: the coder built from a one-entry mapping has a childless leaf root;
`decode` maps every bit sequence of length `n` to `n` copies of the symbol
(the cursor never leaves the root), and `encode` of any run of that symbol
returns the empty bit sequence. -/
theorem c10_single_entry_coder_behaviour (c : Char) (f : Int) (tree : HuffmanTree)
    (h : build_huffman_from_frequencies [(c, f)] = .ok tree) :
    (∀ bits : List Bool, tree.decode bits = List.replicate bits.length c) ∧
    (∀ input : List Char, (∀ x ∈ input, x = c) → tree.encode input = .ok []) := by
  rw [build_single c f] at h
  have htree : HuffmanTree.mk [(c, [])] (.mkNN (some c) f) = tree := by
    injection h
  subst htree
  constructor
  · intro bits
    rw [decode_def, decodeLoop_single _ c f rfl bits]
  · intro input hall
    rw [encode_def, encodeGo_single _ c rfl input [] hall]

theorem c10_witness :
    (HuffmanTree.mk [('a', [])] (.mkNN (some 'a') 1)).decode [true, false] =
      List.replicate 2 'a' :=
  (c10_single_entry_coder_behaviour 'a' 1 _ rfl).1 [true, false]

end Huffman
